import Mathlib

/-!
Verification of the kernel activation / deactivation core and the bootloader
configuration rewriters of the minios-kernel-manager repository.

The Python sources `lib/minios_utils.py` and `lib/bootloader_utils.py` are
shallowly embedded: the text substitutions performed with `re.sub` are
embedded as executable functions on `List Char` that implement the
leftmost, non-overlapping, greedy matching discipline of Python's `re.sub`
for the concrete patterns appearing in the source; the filesystem state
touched by activation and deactivation is embedded as an explicit record,
and the stateful functions become state transformers that additionally
record a trace of the file operations they perform, in program order.
-/

set_option maxRecDepth 8000

/-- Characters matched by Python's `\s` class for text patterns
(`re` uses the Unicode whitespace set for `str` patterns). -/
def isPySpace (c : Char) : Bool :=
  let n := c.toNat
  n = 0x20 || (0x9 ≤ n && n ≤ 0xd) || n = 0x1c || n = 0x1d || n = 0x1e || n = 0x1f ||
  n = 0x85 || n = 0xa0 || n = 0x1680 || (0x2000 ≤ n && n ≤ 0x200a) ||
  n = 0x2028 || n = 0x2029 || n = 0x202f || n = 0x205f || n = 0x3000

/-- Drop an expected literal from the front of a character list; `none`
when the literal is not a prefix of the text. This is the elementary step
used by every embedded `re` pattern (they all start with a fixed literal). -/
def dropLit : List Char → List Char → Option (List Char)
  | [], cs => some cs
  | _ :: _, [] => none
  | l :: ls, c :: cs => if c = l then dropLit ls cs else none

theorem dropLit_length {lit cs rest : List Char} (h : dropLit lit cs = some rest) :
    rest.length + lit.length = cs.length := by
  induction lit generalizing cs with
  | nil =>
    simp only [dropLit, Option.some.injEq] at h
    simp [← h]
  | cons l ls ih =>
    cases cs with
    | nil => simp [dropLit] at h
    | cons c cs' =>
      simp only [dropLit] at h
      split at h
      · have := ih h
        simp only [List.length_cons]
        omega
      · exact absurd h (by simp)

theorem dropLit_self (lit rest : List Char) : dropLit lit (lit ++ rest) = some rest := by
  induction lit with
  | nil => rfl
  | cons l ls ih => simp [dropLit, ih]

theorem dropLit_isSome_start {lit cs rest : List Char} (h : dropLit lit cs = some rest) :
    lit.isPrefixOf cs = true := by
  induction lit generalizing cs with
  | nil => cases cs <;> rfl
  | cons l ls ih =>
    cases cs with
    | nil => simp [dropLit] at h
    | cons c cs2 =>
      simp only [dropLit] at h
      split at h
      · next heq => simp [List.isPrefixOf, heq, ih h]
      · exact absurd h (by simp)

/-- Does the character-by-character comparison of `pat` against the text
fail strictly inside the given (finite) text piece? -/
def litFail : List Char → List Char → Bool
  | _, [] => false
  | [], _ :: _ => false
  | p :: ps, c :: cs => if c = p then litFail ps cs else true

theorem dropLit_none_of_litFail {pat xs : List Char} (h : litFail pat xs = true)
    (ys : List Char) : dropLit pat (xs ++ ys) = none := by
  induction pat generalizing xs with
  | nil => cases xs <;> simp [litFail] at h
  | cons p ps ih =>
    cases xs with
    | nil => simp [litFail] at h
    | cons x xs' =>
      simp only [litFail] at h
      by_cases hx : x = p
      · simp only [hx, if_true] at h
        simp [dropLit, ih h]
      · simp [dropLit, hx]

theorem dropLit_none_head {p : Char} {ps : List Char} {c : Char} {cs : List Char}
    (h : c ≠ p) : dropLit (p :: ps) (c :: cs) = none := by
  simp [dropLit, h]

/-- Match `lit` followed by a non-empty greedy run of non-whitespace
characters (`lit[^\s]+` with `lit` a fixed string); returns the rest of the
text after the run. Greedy maximal munch is exact for these patterns since
nothing follows the run in the regex. -/
def matchRun (lit : List Char) (cs : List Char) : Option (List Char) :=
  match dropLit lit cs with
  | none => none
  | some cs1 =>
    if (cs1.takeWhile (fun c => !(isPySpace c))).isEmpty then none
    else some (cs1.dropWhile (fun c => !(isPySpace c)))

/-- Match `lit1\s+lit2[^\s]+` (the SYSLINUX `KERNEL\s+/minios/boot/vmlinuz-…`
shape); returns the matched whitespace run and the rest of the text.
The greedy `\s+` run is exact because `lit2` starts with a non-space. -/
def matchSpaced (lit1 lit2 : List Char) (cs : List Char) : Option (List Char × List Char) :=
  match dropLit lit1 cs with
  | none => none
  | some cs1 =>
    if (cs1.takeWhile isPySpace).isEmpty then none
    else
      match dropLit lit2 (cs1.dropWhile isPySpace) with
      | none => none
      | some cs2 =>
        if (cs2.takeWhile (fun c => !(isPySpace c))).isEmpty then none
        else some (cs1.takeWhile isPySpace, cs2.dropWhile (fun c => !(isPySpace c)))

/-- Match `lit[^"]+"` (the GRUB `set linux_image="…"` shape); returns the
rest of the text after the closing quote. -/
def matchQuoted (lit : List Char) (cs : List Char) : Option (List Char) :=
  match dropLit lit cs with
  | none => none
  | some cs1 =>
    if (cs1.takeWhile (fun c => c ≠ '"')).isEmpty then none
    else
      match cs1.dropWhile (fun c => c ≠ '"') with
      | [] => none
      | _ :: rest => some rest

theorem dropLit_le {lit cs rest : List Char} (h : dropLit lit cs = some rest) :
    rest.length ≤ cs.length := by
  have := dropLit_length h; omega

theorem takeWhile_dropWhile_length (p : Char → Bool) (l : List Char) :
    (l.takeWhile p).length + (l.dropWhile p).length = l.length := by
  rw [← List.length_append, List.takeWhile_append_dropWhile]

theorem dropWhile_lt_of_takeWhile_ne {p : Char → Bool} {l : List Char}
    (h : (l.takeWhile p).isEmpty = false) : (l.dropWhile p).length < l.length := by
  have := takeWhile_dropWhile_length p l
  have hne : (l.takeWhile p).length ≠ 0 := by
    cases htw : l.takeWhile p with
    | nil => rw [htw] at h; simp [List.isEmpty] at h
    | cons a as => simp [htw]
  omega

theorem dropWhile_le (p : Char → Bool) (l : List Char) :
    (l.dropWhile p).length ≤ l.length := by
  have := takeWhile_dropWhile_length p l
  omega

theorem matchRun_lt {lit cs rest : List Char} (h : matchRun lit cs = some rest) :
    rest.length < cs.length := by
  unfold matchRun at h
  split at h
  · exact absurd h (by simp)
  · next cs1 hdrop =>
    split at h
    · exact absurd h (by simp)
    · next hne =>
      have h1 := dropLit_le hdrop
      have h2 := dropWhile_lt_of_takeWhile_ne
        (p := fun c => !(isPySpace c)) (l := cs1) (by simpa using hne)
      simp only [Option.some.injEq] at h
      subst h
      omega

theorem matchSpaced_lt {lit1 lit2 cs : List Char} {sp rest : List Char}
    (h : matchSpaced lit1 lit2 cs = some (sp, rest)) : rest.length < cs.length := by
  unfold matchSpaced at h
  split at h
  · exact absurd h (by simp)
  · next cs1 hdrop1 =>
    split at h
    · exact absurd h (by simp)
    · next hspne =>
      split at h
      · exact absurd h (by simp)
      · next cs2 hdrop2 =>
        split at h
        · exact absurd h (by simp)
        · next hwne =>
          simp only [Option.some.injEq, Prod.mk.injEq] at h
          obtain ⟨hsp, hrest⟩ := h
          subst hrest
          have h1 := dropLit_le hdrop1
          have h2 := dropWhile_lt_of_takeWhile_ne (p := isPySpace) (l := cs1)
            (by simpa using hspne)
          have h3 := dropLit_le hdrop2
          have h4 := dropWhile_le (fun c => !(isPySpace c)) cs2
          omega

theorem matchQuoted_lt {lit cs rest : List Char} (h : matchQuoted lit cs = some rest) :
    rest.length < cs.length := by
  unfold matchQuoted at h
  split at h
  · exact absurd h (by simp)
  · next cs1 hdrop =>
    split at h
    · exact absurd h (by simp)
    · next hne =>
      split at h
      · exact absurd h (by simp)
      · next c rest' hdw =>
        simp only [Option.some.injEq] at h
        subst h
        have h1 := dropLit_le hdrop
        have h2 : (cs1.dropWhile (fun c => decide (c ≠ '"'))).length ≤ cs1.length :=
          dropWhile_le _ _
        rw [hdw] at h2
        simp only [List.length_cons] at h2
        omega

/-- `re.sub` for the `lit[^\s]+` shape, with explicit fuel (an upper bound
on the text length) so that the recursion is structural and the function
reduces inside the kernel. -/
def subRunF (lit repl : List Char) : Nat → List Char → List Char
  | 0, _ => []
  | _, [] => []
  | fuel + 1, c :: cs =>
    match matchRun lit (c :: cs) with
    | some rest => lit ++ repl ++ subRunF lit repl fuel rest
    | none => c :: subRunF lit repl fuel cs

/-- `re.sub(lit ++ "[^\s]+", replacement, text)`: leftmost, non-overlapping
substitution where each match is replaced by `lit ++ repl` (the fixed
prefix group is kept, the version run replaced). -/
def subRun (lit repl : List Char) (cs : List Char) : List Char :=
  subRunF lit repl cs.length cs

theorem subRunF_congr (lit repl : List Char) :
    ∀ (fuel fuel' : Nat) (cs : List Char), cs.length ≤ fuel → cs.length ≤ fuel' →
      subRunF lit repl fuel cs = subRunF lit repl fuel' cs := by
  intro fuel
  induction fuel with
  | zero =>
    intro fuel' cs h h'
    cases cs with
    | nil => cases fuel' <;> rfl
    | cons c cs' => simp at h
  | succ f ih =>
    intro fuel' cs h h'
    cases cs with
    | nil => cases fuel' <;> rfl
    | cons c cs' =>
      cases fuel' with
      | zero => simp at h'
      | succ f' =>
        cases hm : matchRun lit (c :: cs') with
        | some rest =>
          have hlt := matchRun_lt hm
          simp only [List.length_cons] at h h' hlt
          simp only [subRunF, hm]
          rw [ih f' rest (by omega) (by omega)]
        | none =>
          simp only [List.length_cons] at h h'
          simp only [subRunF, hm]
          rw [ih f' cs' (by omega) (by omega)]

theorem subRun_match {lit repl : List Char} {c : Char} {cs rest : List Char}
    (h : matchRun lit (c :: cs) = some rest) :
    subRun lit repl (c :: cs) = lit ++ repl ++ subRun lit repl rest := by
  unfold subRun
  rw [List.length_cons]
  simp only [subRunF, h]
  have hlt := matchRun_lt h
  simp only [List.length_cons] at hlt
  rw [subRunF_congr lit repl cs.length rest.length rest (by omega) le_rfl]

theorem subRun_no_match {lit repl : List Char} {c : Char} {cs : List Char}
    (h : matchRun lit (c :: cs) = none) :
    subRun lit repl (c :: cs) = c :: subRun lit repl cs := by
  unfold subRun
  rw [List.length_cons]
  simp only [subRunF, h]

/-- Fuelled `re.sub` for the `lit1\s+lit2[^\s]+` shape. -/
def subSpacedF (lit1 lit2 repl : List Char) : Nat → List Char → List Char
  | 0, _ => []
  | _, [] => []
  | fuel + 1, c :: cs =>
    match matchSpaced lit1 lit2 (c :: cs) with
    | some (sp, rest) => lit1 ++ sp ++ lit2 ++ repl ++ subSpacedF lit1 lit2 repl fuel rest
    | none => c :: subSpacedF lit1 lit2 repl fuel cs

/-- `re.sub` for the `lit1\s+lit2[^\s]+` shape: each match is replaced by
`lit1 ++ sp ++ lit2 ++ repl`, preserving the matched whitespace run `sp`. -/
def subSpaced (lit1 lit2 repl : List Char) (cs : List Char) : List Char :=
  subSpacedF lit1 lit2 repl cs.length cs

theorem subSpacedF_congr (lit1 lit2 repl : List Char) :
    ∀ (fuel fuel' : Nat) (cs : List Char), cs.length ≤ fuel → cs.length ≤ fuel' →
      subSpacedF lit1 lit2 repl fuel cs = subSpacedF lit1 lit2 repl fuel' cs := by
  intro fuel
  induction fuel with
  | zero =>
    intro fuel' cs h h'
    cases cs with
    | nil => cases fuel' <;> rfl
    | cons c cs' => simp at h
  | succ f ih =>
    intro fuel' cs h h'
    cases cs with
    | nil => cases fuel' <;> rfl
    | cons c cs' =>
      cases fuel' with
      | zero => simp at h'
      | succ f' =>
        cases hm : matchSpaced lit1 lit2 (c :: cs') with
        | some pr =>
          obtain ⟨sp, rest⟩ := pr
          have hlt := matchSpaced_lt hm
          simp only [List.length_cons] at h h' hlt
          simp only [subSpacedF, hm]
          rw [ih f' rest (by omega) (by omega)]
        | none =>
          simp only [List.length_cons] at h h'
          simp only [subSpacedF, hm]
          rw [ih f' cs' (by omega) (by omega)]

theorem subSpaced_match {lit1 lit2 repl : List Char} {c : Char}
    {cs sp rest : List Char} (h : matchSpaced lit1 lit2 (c :: cs) = some (sp, rest)) :
    subSpaced lit1 lit2 repl (c :: cs) =
      lit1 ++ sp ++ lit2 ++ repl ++ subSpaced lit1 lit2 repl rest := by
  unfold subSpaced
  rw [List.length_cons]
  simp only [subSpacedF, h]
  have hlt := matchSpaced_lt h
  simp only [List.length_cons] at hlt
  rw [subSpacedF_congr lit1 lit2 repl cs.length rest.length rest (by omega) le_rfl]

theorem subSpaced_no_match {lit1 lit2 repl : List Char} {c : Char} {cs : List Char}
    (h : matchSpaced lit1 lit2 (c :: cs) = none) :
    subSpaced lit1 lit2 repl (c :: cs) = c :: subSpaced lit1 lit2 repl cs := by
  unfold subSpaced
  rw [List.length_cons]
  simp only [subSpacedF, h]

/-- Fuelled `re.sub` for the `lit[^"]+"` shape. -/
def subQuotedF (lit repl : List Char) : Nat → List Char → List Char
  | 0, _ => []
  | _, [] => []
  | fuel + 1, c :: cs =>
    match matchQuoted lit (c :: cs) with
    | some rest => lit ++ repl ++ subQuotedF lit repl fuel rest
    | none => c :: subQuotedF lit repl fuel cs

/-- `re.sub` for the `lit[^"]+"` shape: each match is replaced by
`lit ++ repl` (the replacement strings in the source re-insert the quote). -/
def subQuoted (lit repl : List Char) (cs : List Char) : List Char :=
  subQuotedF lit repl cs.length cs

theorem subQuotedF_congr (lit repl : List Char) :
    ∀ (fuel fuel' : Nat) (cs : List Char), cs.length ≤ fuel → cs.length ≤ fuel' →
      subQuotedF lit repl fuel cs = subQuotedF lit repl fuel' cs := by
  intro fuel
  induction fuel with
  | zero =>
    intro fuel' cs h h'
    cases cs with
    | nil => cases fuel' <;> rfl
    | cons c cs' => simp at h
  | succ f ih =>
    intro fuel' cs h h'
    cases cs with
    | nil => cases fuel' <;> rfl
    | cons c cs' =>
      cases fuel' with
      | zero => simp at h'
      | succ f' =>
        cases hm : matchQuoted lit (c :: cs') with
        | some rest =>
          have hlt := matchQuoted_lt hm
          simp only [List.length_cons] at h h' hlt
          simp only [subQuotedF, hm]
          rw [ih f' rest (by omega) (by omega)]
        | none =>
          simp only [List.length_cons] at h h'
          simp only [subQuotedF, hm]
          rw [ih f' cs' (by omega) (by omega)]

theorem subQuoted_match {lit repl : List Char} {c : Char} {cs rest : List Char}
    (h : matchQuoted lit (c :: cs) = some rest) :
    subQuoted lit repl (c :: cs) = lit ++ repl ++ subQuoted lit repl rest := by
  unfold subQuoted
  rw [List.length_cons]
  simp only [subQuotedF, h]
  have hlt := matchQuoted_lt h
  simp only [List.length_cons] at hlt
  rw [subQuotedF_congr lit repl cs.length rest.length rest (by omega) le_rfl]

theorem subQuoted_no_match {lit repl : List Char} {c : Char} {cs : List Char}
    (h : matchQuoted lit (c :: cs) = none) :
    subQuoted lit repl (c :: cs) = c :: subQuoted lit repl cs := by
  unfold subQuoted
  rw [List.length_cons]
  simp only [subQuotedF, h]

/-- Embedding of the two `re.sub` calls shared by
`minios_utils._update_syslinux_config` and
`bootloader_utils.update_syslinux_config._update_syslinux_file`:
`(KERNEL\s+/minios/boot/)vmlinuz-[^\s]+ -> \1vmlinuz-{v}` followed by
`(initrd=/minios/boot/)initrfs-[^\s]+ -> \1initrfs-{v}.img`. -/
def subSyslinux (v : String) (cs : List Char) : List Char :=
  subRun "initrd=/minios/boot/initrfs-".data ((v ++ ".img").data)
    (subSpaced "KERNEL".data "/minios/boot/vmlinuz-".data v.data cs)

/-- Embedding of the five chained `re.sub` calls of
`minios_utils._update_grub_config` (lines 281-294), in source order:
quoted `set linux_image="…"` / `set initrd_img="…"` assignments, then the
bare `/minios/boot/vmlinuz-…` / `/minios/boot/initrfs-…` references, then
the `search --set -f /minios/boot/vmlinuz-…` pattern. -/
def subGrubMU (v : String) (cs : List Char) : List Char :=
  subRun "search --set -f /minios/boot/vmlinuz-".data v.data
    (subRun "/minios/boot/initrfs-".data ((v ++ ".img").data)
      (subRun "/minios/boot/vmlinuz-".data v.data
        (subQuoted "set initrd_img=\"".data (("/minios/boot/initrfs-" ++ v ++ ".img\"").data)
          (subQuoted "set linux_image=\"".data (("/minios/boot/vmlinuz-" ++ v ++ "\"").data)
            cs))))

/-- String-level SYSLINUX rewrite, as applied to one config file's text. -/
def syslinuxRewrite (v content : String) : String :=
  ⟨subSyslinux v content.data⟩

/-- String-level GRUB rewrite of `minios_utils._update_grub_config`. -/
def grubRewriteMU (v content : String) : String :=
  ⟨subGrubMU v content.data⟩

/-- Association-list lookup (filesystem directories are modelled as
association lists from file name to file content). -/
def alook {α : Type} : List (String × α) → String → Option α
  | [], _ => none
  | (k, v) :: rest, key => if k = key then some v else alook rest key

/-- Association-list insert-or-replace (creating or overwriting a file). -/
def aput {α : Type} : List (String × α) → String → α → List (String × α)
  | [], key, v => [(key, v)]
  | (k, w) :: rest, key, v =>
    if k = key then (k, v) :: rest else (k, w) :: aput rest key v

/-- Association-list removal (deleting a file). -/
def adel {α : Type} : List (String × α) → String → List (String × α)
  | [], _ => []
  | (k, w) :: rest, key => if k = key then rest else (k, w) :: adel rest key

/-- The slice of the on-disk state under the MiniOS root that the
activation / deactivation core reads and writes: the active-kernel marker
(`boot/active-kernel`), the `boot/` directory, the files directly under the
root (the `01-kernel-<v>.sb` module image), the versioned repository
`kernels/<v>/`, and the two bootloader config files consulted by
`minios_utils._update_bootloader_configs` (`boot/syslinux.cfg` and
`boot/grub/grub.cfg`); `none` models an absent file. -/
structure FS where
  marker : Option String
  boot : List (String × String)
  root : List (String × String)
  kernels : List (String × List (String × String))
  syslinuxCfg : Option String
  grubCfg : Option String
deriving DecidableEq

/-- Ambient facts the code obtains outside the root directory: the version
reported by `get_currently_running_kernel` (`""` when undetectable), and
whether the read/chmod/write of a bootloader config file raises (the
`except` branches of `_update_syslinux_config` / `_update_grub_config`). -/
structure Env where
  running : String
  syslinuxFail : Bool
  grubFail : Bool
deriving DecidableEq

/-- Trace events recording the file operations in program order. -/
inductive Ev where
  | mkdirRepo (v : String)
  | retireCopy (name : String)
  | retireMove (name : String)
  | copyActive (name : String)
  | cfgWrite (grub : Bool)
  | markerWrite (v : String)
deriving DecidableEq

/-- Location of an active-kernel file: `boot/` or directly under the root. -/
inductive FLoc where
  | boot
  | root
deriving DecidableEq

/-- A reference to one active-location file. -/
structure FRef where
  loc : FLoc
  name : String
deriving DecidableEq

def fsGet (s : FS) (f : FRef) : Option String :=
  match f.loc with
  | .boot => alook s.boot f.name
  | .root => alook s.root f.name

def fsDel (s : FS) (f : FRef) : FS :=
  match f.loc with
  | .boot => { s with boot := adel s.boot f.name }
  | .root => { s with root := adel s.root f.name }

def bootPut (s : FS) (n c : String) : FS := { s with boot := aput s.boot n c }

def rootPut (s : FS) (n c : String) : FS := { s with root := aput s.root n c }

def repoDir (s : FS) (v : String) : Option (List (String × String)) :=
  alook s.kernels v

/-- `os.makedirs(kernel_version_path, exist_ok=True)`. -/
def repoMkdir (s : FS) (v : String) : FS :=
  match repoDir s v with
  | some _ => s
  | none => { s with kernels := aput s.kernels v [] }

/-- Create or overwrite `kernels/<v>/<n>`. -/
def repoPut (s : FS) (v n c : String) : FS :=
  match repoDir s v with
  | some files => { s with kernels := aput s.kernels v (aput files n c) }
  | none => { s with kernels := aput s.kernels v [(n, c)] }

def repoGet (s : FS) (v n : String) : Option String :=
  match repoDir s v with
  | some files => alook files n
  | none => none

/-- `is_kernel_currently_running`: compares against
`get_currently_running_kernel()`. -/
def isRunningKernel (env : Env) (v : String) : Bool := v == env.running

/-- Python `str.strip()`: remove leading and trailing whitespace. -/
def pyStrip (s : String) : String :=
  ⟨((s.data.dropWhile isPySpace).reverse.dropWhile isPySpace).reverse⟩

/-- Python `str.replace(pat, rep)` (all occurrences, left to right), with
fuel for structural recursion. -/
def pyReplaceF (pat rep : List Char) : Nat → List Char → List Char
  | 0, cs => cs
  | _, [] => []
  | fuel + 1, c :: cs =>
    if pat.isPrefixOf (c :: cs) then
      rep ++ pyReplaceF pat rep fuel (List.drop pat.length (c :: cs))
    else c :: pyReplaceF pat rep fuel cs

def pyReplace (pat rep : List Char) (s : String) : String :=
  ⟨pyReplaceF pat rep s.data.length s.data⟩

/-- Fallback of `get_active_kernel`: first `boot/vmlinuz-*` glob match,
with `"vmlinuz-"` deleted from the basename (`str.replace`). -/
def activeFallback (s : FS) : Option String :=
  match s.boot.filter (fun f => "vmlinuz-".data.isPrefixOf f.1.data) with
  | [] => none
  | f :: _ => some (pyReplace "vmlinuz-".data [] f.1)

/-- `get_active_kernel` (minios_utils.py:113): marker content if present and
non-blank after stripping, else the `vmlinuz-*` fallback. -/
def getActiveKernel (s : FS) : Option String :=
  match s.marker with
  | some m => if pyStrip m ≠ "" then some (pyStrip m) else activeFallback s
  | none => activeFallback s

/-- `get_active_kernel_files(minios_path, kernel_version)`
(minios_utils.py:142): the subset of the three per-version active files
that actually exist, in source order vmlinuz, initrfs, squashfs. -/
def getActiveKernelFiles (s : FS) (v : String) : List FRef :=
  (match alook s.boot ("vmlinuz-" ++ v) with
   | some _ => [⟨.boot, "vmlinuz-" ++ v⟩]
   | none => []) ++
  (match alook s.boot ("initrfs-" ++ v ++ ".img") with
   | some _ => [⟨.boot, "initrfs-" ++ v ++ ".img"⟩]
   | none => []) ++
  (match alook s.root ("01-kernel-" ++ v ++ ".sb") with
   | some _ => [⟨.root, "01-kernel-" ++ v ++ ".sb"⟩]
   | none => [])

/-- One iteration of the transfer loop of `deactivate_current_kernel`:
`shutil.copy2` into the repository when the kernel is running, `shutil.move`
otherwise, skipping files that vanished. -/
def retireStep (isR : Bool) (v : String) (acc : FS × List Ev) (f : FRef) :
    FS × List Ev :=
  match fsGet acc.1 f with
  | none => (acc.1, acc.2)
  | some content =>
    if isR then (repoPut acc.1 v f.name content, acc.2 ++ [.retireCopy f.name])
    else (fsDel (repoPut acc.1 v f.name content) f, acc.2 ++ [.retireMove f.name])

/-- `deactivate_current_kernel` (minios_utils.py:308): ensure the
repository directory exists, then copy (running) or move (not running)
each existing active file of the active version into it. -/
def deactivateCurrentKernel (env : Env) (s : FS) : Bool × FS × List Ev :=
  match getActiveKernel s with
  | none => (true, s, [])
  | some v =>
    if (getActiveKernelFiles (repoMkdir s v) v).isEmpty then
      (true, repoMkdir s v, [.mkdirRepo v])
    else
      (true,
       ((getActiveKernelFiles (repoMkdir s v) v).foldl
         (retireStep (isRunningKernel env v) v) (repoMkdir s v, [.mkdirRepo v])).1,
       ((getActiveKernelFiles (repoMkdir s v) v).foldl
         (retireStep (isRunningKernel env v) v) (repoMkdir s v, [.mkdirRepo v])).2)

/-- `_update_syslinux_config` (minios_utils.py:218) applied to
`boot/syslinux.cfg` under the existence guard of
`_update_bootloader_configs`; `env.syslinuxFail` models the `except` branch
(config unreadable/unwritable), which returns `False`. The file is written
back only when the rewritten text differs. -/
def updateSyslinuxCfgMU (env : Env) (s : FS) (v : String) : Bool × FS × List Ev :=
  match s.syslinuxCfg with
  | none => (true, s, [])
  | some content =>
    if env.syslinuxFail then (false, s, [])
    else
      if syslinuxRewrite v content ≠ content then
        (true, { s with syslinuxCfg := some (syslinuxRewrite v content) },
         [.cfgWrite false])
      else (true, s, [])

/-- `_update_grub_config` (minios_utils.py:259) applied to
`boot/grub/grub.cfg` under the existence guard of
`_update_bootloader_configs`. -/
def updateGrubCfgMU (env : Env) (s : FS) (v : String) : Bool × FS × List Ev :=
  match s.grubCfg with
  | none => (true, s, [])
  | some content =>
    if env.grubFail then (false, s, [])
    else
      if grubRewriteMU v content ≠ content then
        (true, { s with grubCfg := some (grubRewriteMU v content) },
         [.cfgWrite true])
      else (true, s, [])

/-- `_update_bootloader_configs` (minios_utils.py:198): syslinux first, then
grub, success is the conjunction. -/
def updateBootloaderConfigs (env : Env) (s : FS) (v : String) :
    Bool × FS × List Ev :=
  ((updateSyslinuxCfgMU env s v).1 &&
     (updateGrubCfgMU env (updateSyslinuxCfgMU env s v).2.1 v).1,
   (updateGrubCfgMU env (updateSyslinuxCfgMU env s v).2.1 v).2.1,
   (updateSyslinuxCfgMU env s v).2.2 ++
     (updateGrubCfgMU env (updateSyslinuxCfgMU env s v).2.1 v).2.2)

/-- Writing `boot/active-kernel`. -/
def setMarker (s : FS) (v : String) : FS := { s with marker := some v }

/-- The three `shutil.copy2` calls of `activate_kernel` that install the
repository files of `v` into the active locations. -/
def activateCopies (s : FS) (v csq cvm cir : String) : FS :=
  bootPut
    (bootPut (rootPut s ("01-kernel-" ++ v ++ ".sb") csq) ("vmlinuz-" ++ v) cvm)
    ("initrfs-" ++ v ++ ".img") cir

def activateFinish (env : Env) (s1 : FS) (v : String) (csq cvm cir : String)
    (t1 : List Ev) : Bool × FS × List Ev :=
  (true,
   setMarker (updateBootloaderConfigs env (activateCopies s1 v csq cvm cir) v).2.1 v,
   t1 ++
     [.copyActive ("01-kernel-" ++ v ++ ".sb"), .copyActive ("vmlinuz-" ++ v),
      .copyActive ("initrfs-" ++ v ++ ".img")] ++
     (updateBootloaderConfigs env (activateCopies s1 v csq cvm cir) v).2.2 ++
     [.markerWrite v])

/-- The normal-case body of `activate_kernel` after deactivation: the
not-found check on `kernels/<v>`, the three per-file existence checks in
source order (squashfs, vmlinuz, initramfs — a missing file raises
`FileNotFoundError`, caught as failure), then the three copies into the
active locations, the bootloader update (result discarded), and the
marker write. `s1`/`t1` are the state and trace after deactivation. -/
def activateFromRepo (env : Env) (s1 : FS) (v : String) (t1 : List Ev) :
    Bool × FS × List Ev :=
  if (repoDir s1 v).isNone then (false, s1, t1)
  else
    match repoGet s1 v ("01-kernel-" ++ v ++ ".sb") with
    | none => (false, s1, t1)
    | some csq =>
      match repoGet s1 v ("vmlinuz-" ++ v) with
      | none => (false, s1, t1)
      | some cvm =>
        match repoGet s1 v ("initrfs-" ++ v ++ ".img") with
        | none => (false, s1, t1)
        | some cir => activateFinish env s1 v csq cvm cir t1

/-- `activate_kernel` (minios_utils.py:358). Note that on both paths the
boolean result of `_update_bootloader_configs` is discarded. -/
def activateKernel (env : Env) (s : FS) (v : String) : Bool × FS × List Ev :=
  if isRunningKernel env v then
    if getActiveKernel s == some v then (true, s, [])
    else
      if !(deactivateCurrentKernel env s).1 then
        (false, (deactivateCurrentKernel env s).2.1, (deactivateCurrentKernel env s).2.2)
      else
        (true,
         setMarker
           (updateBootloaderConfigs env (deactivateCurrentKernel env s).2.1 v).2.1 v,
         (deactivateCurrentKernel env s).2.2 ++
           (updateBootloaderConfigs env (deactivateCurrentKernel env s).2.1 v).2.2 ++
           [.markerWrite v])
  else
    if !(deactivateCurrentKernel env s).1 then
      (false, (deactivateCurrentKernel env s).2.1, (deactivateCurrentKernel env s).2.2)
    else
      activateFromRepo env (deactivateCurrentKernel env s).2.1 v
        (deactivateCurrentKernel env s).2.2

/-- The `is_packaged` field computed by `get_kernel_info`
(minios_utils.py:464): existence of the directory `kernels/<v>` only. -/
def isPackagedInfo (s : FS) (v : String) : Bool := (repoDir s v).isSome

/-- All three members of the per-version file set exist under
`kernels/<v>/` (the spec notion of a packaged kernel, §3 KernelFileSet). -/
def allThreePackaged (s : FS) (v : String) : Bool :=
  (repoGet s v ("01-kernel-" ++ v ++ ".sb")).isSome &&
  (repoGet s v ("vmlinuz-" ++ v)).isSome &&
  (repoGet s v ("initrfs-" ++ v ++ ".img")).isSome

def insertSorted (x : String) : List String → List String
  | [] => [x]
  | y :: ys => if x ≤ y then x :: y :: ys else y :: insertSorted x ys

def sortStrings (l : List String) : List String := l.foldr insertSorted []

/-- `list_all_kernels` (minios_utils.py:425): packaged directory names,
plus the active kernel, plus the running kernel, deduplicated and sorted. -/
def listAllKernels (env : Env) (s : FS) : List String :=
  let base := s.kernels.map (fun d => d.1)
  let withActive :=
    match getActiveKernel s with
    | some a => base ++ [a]
    | none => base
  let withRunning :=
    if env.running ≠ "" then withActive ++ [env.running] else withActive
  sortStrings withRunning.dedup

/-- The decision core of the CLI command `activate_kernel_cmd`
(minios_kernel.py:282): reject a version not in `list_all_kernels`, return
success immediately when it is already the active kernel, and only
otherwise invoke the library `activate_kernel`. -/
def activateKernelCmd (env : Env) (s : FS) (v : String) : Bool × FS :=
  if !((listAllKernels env s).contains v) then (false, s)
  else if getActiveKernel s == some v then (true, s)
  else ((activateKernel env s v).1, (activateKernel env s v).2.1)

theorem alook_aput_self {α : Type} (l : List (String × α)) (k : String) (v : α) :
    alook (aput l k v) k = some v := by
  induction l with
  | nil => simp [aput, alook]
  | cons p rest ih =>
    by_cases h : p.1 = k
    · simp [aput, h, alook]
    · simp [aput, h, alook, ih]

theorem alook_aput_ne {α : Type} (l : List (String × α)) (k k' : String) (v : α)
    (h : k' ≠ k) : alook (aput l k v) k' = alook l k' := by
  induction l with
  | nil => simp [aput, alook, Ne.symm h]
  | cons p rest ih =>
    by_cases hp : p.1 = k
    · simp [aput, hp, alook, Ne.symm h]
    · by_cases hp' : p.1 = k'
      · simp [aput, hp, alook, hp', h]
      · simp [aput, hp, alook, hp', ih]

theorem alook_adel_ne {α : Type} (l : List (String × α)) (k k' : String)
    (h : k' ≠ k) : alook (adel l k) k' = alook l k' := by
  induction l with
  | nil => simp [adel]
  | cons p rest ih =>
    by_cases hp : p.1 = k
    · simp [adel, hp, alook, Ne.symm h]
    · by_cases hp' : p.1 = k'
      · simp [adel, hp, alook, hp', h]
      · simp [adel, hp, alook, hp', ih]

theorem mem_keys_of_alook {α : Type} {l : List (String × α)} {k : String} {c : α}
    (h : alook l k = some c) : k ∈ l.map Prod.fst := by
  induction l with
  | nil => simp [alook] at h
  | cons p rest ih =>
    simp only [alook] at h
    by_cases hp : p.1 = k
    · simp [hp]
    · simp only [hp, if_false] at h
      simp [ih h]

theorem alook_adel_self {α : Type} (l : List (String × α)) (k : String)
    (hnd : (l.map Prod.fst).Nodup) : alook (adel l k) k = none := by
  induction l with
  | nil => simp [adel, alook]
  | cons p rest ih =>
    simp only [List.map_cons, List.nodup_cons] at hnd
    by_cases hp : p.1 = k
    · rw [adel]
      simp only [hp, if_true]
      cases hl : alook rest k with
      | none => rfl
      | some c => exact absurd (hp ▸ mem_keys_of_alook hl) hnd.1
    · rw [adel]
      simp only [hp, if_false, alook, hp]
      exact ih hnd.2

theorem repoMkdir_boot (s : FS) (v : String) : (repoMkdir s v).boot = s.boot := by
  unfold repoMkdir; split <;> rfl

theorem repoMkdir_root (s : FS) (v : String) : (repoMkdir s v).root = s.root := by
  unfold repoMkdir; split <;> rfl

theorem repoMkdir_marker (s : FS) (v : String) : (repoMkdir s v).marker = s.marker := by
  unfold repoMkdir; split <;> rfl

theorem repoPut_marker (s : FS) (v n c : String) : (repoPut s v n c).marker = s.marker := by
  unfold repoPut; split <;> rfl

theorem repoPut_boot (s : FS) (v n c : String) : (repoPut s v n c).boot = s.boot := by
  unfold repoPut; split <;> rfl

theorem repoPut_root (s : FS) (v n c : String) : (repoPut s v n c).root = s.root := by
  unfold repoPut; split <;> rfl

theorem fsDel_marker (s : FS) (f : FRef) : (fsDel s f).marker = s.marker := by
  unfold fsDel; cases f.loc <;> rfl

theorem fsDel_kernels (s : FS) (f : FRef) : (fsDel s f).kernels = s.kernels := by
  unfold fsDel; cases f.loc <;> rfl

/-- Generic invariant preservation through the retirement loop. -/
theorem foldl_retire_inv (P : FS → Prop) (isR : Bool) (v : String)
    (files : List FRef)
    (hstep : ∀ st tr f, P st → P (retireStep isR v (st, tr) f).1) :
    ∀ acc : FS × List Ev, P acc.1 → P (files.foldl (retireStep isR v) acc).1 := by
  induction files with
  | nil => intro acc h; simpa using h
  | cons f fs ih =>
    intro acc h
    simp only [List.foldl_cons]
    exact ih _ (by
      have := hstep acc.1 acc.2 f h
      simpa using this)

theorem retireStep_marker (isR : Bool) (v : String) (acc : FS × List Ev) (f : FRef) :
    (retireStep isR v acc f).1.marker = acc.1.marker := by
  unfold retireStep
  split
  · rfl
  · split
    · simp [repoPut_marker]
    · simp [fsDel_marker, repoPut_marker]

/-- Deactivation never touches the active-kernel marker file. -/
theorem deactivate_marker (env : Env) (s : FS) :
    (deactivateCurrentKernel env s).2.1.marker = s.marker := by
  unfold deactivateCurrentKernel
  split
  · rfl
  · next v hv =>
    split
    · simp [repoMkdir_marker]
    · have := foldl_retire_inv (fun st => st.marker = s.marker)
        (isRunningKernel env v) v (getActiveKernelFiles (repoMkdir s v) v)
        (by intro st tr f h; rw [retireStep_marker]; exact h)
        (repoMkdir s v, [Ev.mkdirRepo v]) (repoMkdir_marker s v)
      simpa using this

/-- In the embedded (exception-free) semantics, deactivation reports success. -/
theorem deactivate_ok (env : Env) (s : FS) :
    (deactivateCurrentKernel env s).1 = true := by
  unfold deactivateCurrentKernel
  split
  · rfl
  · split <;> rfl

theorem repoGet_repoPut_mono {s : FS} {w n : String} (v' n' c' : String)
    (h : (repoGet s w n).isSome = true) :
    (repoGet (repoPut s v' n' c') w n).isSome = true := by
  unfold repoGet repoDir at h ⊢
  unfold repoPut repoDir
  cases hd : alook s.kernels v' with
  | some files =>
    simp only
    by_cases hw : w = v'
    · subst hw
      rw [hd] at h
      simp only [alook_aput_self]
      by_cases hn : n = n'
      · subst hn; simp [alook_aput_self]
      · simpa [alook_aput_ne files n' n c' hn] using h
    · simpa [alook_aput_ne s.kernels v' w _ hw] using h
  | none =>
    simp only
    by_cases hw : w = v'
    · subst hw
      rw [hd] at h
      simp at h
    · simpa [alook_aput_ne s.kernels v' w _ hw] using h

theorem repoGet_repoMkdir_mono {s : FS} {w n : String} (v' : String)
    (h : (repoGet s w n).isSome = true) :
    (repoGet (repoMkdir s v') w n).isSome = true := by
  unfold repoGet repoDir at h ⊢
  unfold repoMkdir repoDir
  cases hd : alook s.kernels v' with
  | some files => simpa using h
  | none =>
    simp only
    by_cases hw : w = v'
    · subst hw
      rw [hd] at h
      simp at h
    · simpa [alook_aput_ne s.kernels v' w _ hw] using h

theorem repoGet_fsDel {s : FS} (f : FRef) (w n : String) :
    repoGet (fsDel s f) w n = repoGet s w n := by
  unfold repoGet repoDir
  rw [fsDel_kernels]

theorem repoGet_retireStep_mono (isR : Bool) (v : String) {w n : String}
    (acc : FS × List Ev) (f : FRef)
    (h : (repoGet acc.1 w n).isSome = true) :
    (repoGet (retireStep isR v acc f).1 w n).isSome = true := by
  unfold retireStep
  split
  · exact h
  · split
    · exact repoGet_repoPut_mono _ _ _ h
    · simp only
      rw [repoGet_fsDel]
      exact repoGet_repoPut_mono _ _ _ h

/-- Files already present in the repository survive deactivation. -/
theorem repoGet_deactivate_mono (env : Env) (s : FS) {w n : String}
    (h : (repoGet s w n).isSome = true) :
    (repoGet (deactivateCurrentKernel env s).2.1 w n).isSome = true := by
  unfold deactivateCurrentKernel
  split
  · exact h
  · next v hv =>
    split
    · exact repoGet_repoMkdir_mono _ h
    · exact foldl_retire_inv (fun st => (repoGet st w n).isSome = true)
        (isRunningKernel env v) v _
        (fun st tr f hp => repoGet_retireStep_mono _ _ (st, tr) f hp)
        (repoMkdir s v, [Ev.mkdirRepo v]) (repoGet_repoMkdir_mono _ h)

theorem repoDir_isSome_of_repoGet {s : FS} {w n : String}
    (h : (repoGet s w n).isSome = true) : (repoDir s w).isNone = false := by
  unfold repoGet at h
  cases hd : repoDir s w with
  | some files => simp
  | none => rw [hd] at h; simp at h

/-- Events that the retirement of the previously active kernel can emit. -/
def isRetireEv : Ev → Bool
  | .mkdirRepo _ => true
  | .retireCopy _ => true
  | .retireMove _ => true
  | _ => false

/-- Events that the bootloader configuration update can emit. -/
def isCfgEv : Ev → Bool
  | .cfgWrite _ => true
  | _ => false

theorem foldl_retire_tr (isR : Bool) (v : String) (files : List FRef) :
    ∀ acc : FS × List Ev, (∀ e ∈ acc.2, isRetireEv e = true) →
      ∀ e ∈ (files.foldl (retireStep isR v) acc).2, isRetireEv e = true := by
  induction files with
  | nil => intro acc h; simpa using h
  | cons f fs ih =>
    intro acc h
    simp only [List.foldl_cons]
    apply ih
    unfold retireStep
    split
    · exact h
    · split
      · intro e he
        simp only [List.mem_append, List.mem_singleton] at he
        rcases he with he | he
        · exact h e he
        · simp [he, isRetireEv]
      · intro e he
        simp only [List.mem_append, List.mem_singleton] at he
        rcases he with he | he
        · exact h e he
        · simp [he, isRetireEv]

theorem deactivate_tr_retire (env : Env) (s : FS) :
    ∀ e ∈ (deactivateCurrentKernel env s).2.2, isRetireEv e = true := by
  unfold deactivateCurrentKernel
  split
  · simp
  · next v hv =>
    split
    · simp [isRetireEv]
    · exact foldl_retire_tr _ _ _ _ (by simp [isRetireEv])

theorem updateSyslinuxCfgMU_tr (env : Env) (s : FS) (v : String) :
    ∀ e ∈ (updateSyslinuxCfgMU env s v).2.2, isCfgEv e = true := by
  unfold updateSyslinuxCfgMU
  split
  · simp
  · split
    · simp
    · split <;> simp [isCfgEv]

theorem updateGrubCfgMU_tr (env : Env) (s : FS) (v : String) :
    ∀ e ∈ (updateGrubCfgMU env s v).2.2, isCfgEv e = true := by
  unfold updateGrubCfgMU
  split
  · simp
  · split
    · simp
    · split <;> simp [isCfgEv]

theorem updateBootloaderConfigs_tr (env : Env) (s : FS) (v : String) :
    ∀ e ∈ (updateBootloaderConfigs env s v).2.2, isCfgEv e = true := by
  unfold updateBootloaderConfigs
  intro e he
  simp only [List.mem_append] at he
  rcases he with he | he
  · exact updateSyslinuxCfgMU_tr env s v e he
  · exact updateGrubCfgMU_tr env _ v e he

theorem repoGet_repoPut_self (s : FS) (v n c : String) :
    repoGet (repoPut s v n c) v n = some c := by
  unfold repoGet repoPut repoDir
  cases hd : alook s.kernels v with
  | some files => simp [alook_aput_self]
  | none => simp [alook_aput_self, alook]

theorem fsGet_repoPut (s : FS) (v n c : String) (f : FRef) :
    fsGet (repoPut s v n c) f = fsGet s f := by
  cases f with
  | mk loc name =>
    cases loc
    · show alook (repoPut s v n c).boot name = alook s.boot name
      rw [repoPut_boot]
    · show alook (repoPut s v n c).root name = alook s.root name
      rw [repoPut_root]

theorem fsGet_repoMkdir (s : FS) (v : String) (f : FRef) :
    fsGet (repoMkdir s v) f = fsGet s f := by
  cases f with
  | mk loc name =>
    cases loc
    · show alook (repoMkdir s v).boot name = alook s.boot name
      rw [repoMkdir_boot]
    · show alook (repoMkdir s v).root name = alook s.root name
      rw [repoMkdir_root]

theorem fsGet_fsDel_self (s : FS) (f : FRef)
    (hb : (s.boot.map Prod.fst).Nodup) (hr : (s.root.map Prod.fst).Nodup) :
    fsGet (fsDel s f) f = none := by
  unfold fsGet fsDel
  cases f.loc
  · exact alook_adel_self s.boot f.name hb
  · exact alook_adel_self s.root f.name hr

theorem fsGet_fsDel_other (s : FS) (f g : FRef)
    (h : f.name ≠ g.name ∨ f.loc ≠ g.loc) :
    fsGet (fsDel s g) f = fsGet s f := by
  cases f with
  | mk floc fname =>
    cases g with
    | mk gloc gname =>
      cases floc <;> cases gloc
      · rcases h with h | h
        · exact alook_adel_ne s.boot gname fname h
        · simp at h
      · rfl
      · rfl
      · rcases h with h | h
        · exact alook_adel_ne s.root gname fname h
        · simp at h

theorem adel_sublist {α : Type} (l : List (String × α)) (k : String) :
    (adel l k).Sublist l := by
  induction l with
  | nil => simp [adel]
  | cons p rest ih =>
    by_cases hp : p.1 = k
    · simp only [adel, hp, if_true]
      exact (List.sublist_cons_self p rest)
    · simp only [adel, hp, if_false]
      exact List.Sublist.cons₂ p ih

theorem adel_keys_nodup {α : Type} {l : List (String × α)} (k : String)
    (h : (l.map Prod.fst).Nodup) : ((adel l k).map Prod.fst).Nodup :=
  ((adel_sublist l k).map Prod.fst).nodup h

theorem retireStep_boot_nodup (isR : Bool) (v : String) (acc : FS × List Ev)
    (f : FRef) (h : (acc.1.boot.map Prod.fst).Nodup) :
    ((retireStep isR v acc f).1.boot.map Prod.fst).Nodup := by
  unfold retireStep
  split
  · exact h
  · split
    · rw [repoPut_boot]; exact h
    · unfold fsDel
      cases f.loc
      · simp only [repoPut_boot]
        exact adel_keys_nodup f.name h
      · simp only [repoPut_boot]
        exact h

theorem retireStep_root_nodup (isR : Bool) (v : String) (acc : FS × List Ev)
    (f : FRef) (h : (acc.1.root.map Prod.fst).Nodup) :
    ((retireStep isR v acc f).1.root.map Prod.fst).Nodup := by
  unfold retireStep
  split
  · exact h
  · split
    · rw [repoPut_root]; exact h
    · unfold fsDel
      cases f.loc
      · simp only [repoPut_root]
        exact h
      · simp only [repoPut_root]
        exact adel_keys_nodup f.name h

theorem retireStep_fsGet_other (isR : Bool) (v : String) (acc : FS × List Ev)
    (g f : FRef) (hne : f.name ≠ g.name ∨ f.loc ≠ g.loc) :
    fsGet (retireStep isR v acc g).1 f = fsGet acc.1 f := by
  unfold retireStep
  split
  · rfl
  · split
    · simp only [fsGet_repoPut]
    · simp only
      rw [fsGet_fsDel_other _ _ _ hne, fsGet_repoPut]

/-- Restricted fold invariant: only steps on members of the list matter. -/
theorem foldl_retire_inv_mem (P : FS → Prop) (isR : Bool) (v : String)
    (fs : List FRef)
    (hstep : ∀ st tr g, g ∈ fs → P st → P (retireStep isR v (st, tr) g).1) :
    ∀ acc : FS × List Ev, P acc.1 → P (fs.foldl (retireStep isR v) acc).1 := by
  induction fs with
  | nil => intro acc h; simpa using h
  | cons g gs ih =>
    intro acc h
    simp only [List.foldl_cons]
    exact ih (fun st tr g' hg' hp => hstep st tr g' (List.mem_cons_of_mem _ hg') hp) _
      (by
        have := hstep acc.1 acc.2 g (List.mem_cons_self g gs) h
        simpa using this)


theorem fsDel_boot_nodup (s : FS) (f : FRef) (h : (s.boot.map Prod.fst).Nodup) :
    ((fsDel s f).boot.map Prod.fst).Nodup := by
  cases f with
  | mk loc name =>
    cases loc
    · exact adel_keys_nodup name h
    · exact h

theorem fsDel_root_nodup (s : FS) (f : FRef) (h : (s.root.map Prod.fst).Nodup) :
    ((fsDel s f).root.map Prod.fst).Nodup := by
  cases f with
  | mk loc name =>
    cases loc
    · exact h
    · exact adel_keys_nodup name h

/-- Full specification of the transfer loop of `deactivate_current_kernel`:
every processed file ends up present in `kernels/<v>/`; with a running
kernel the source file is copied and stays in place, otherwise it is moved
and disappears from its active location. -/
theorem retire_fold_spec (isR : Bool) (v : String) :
    ∀ (files : List FRef) (s1 : FS) (t : List Ev),
      (∀ f ∈ files, (fsGet s1 f).isSome = true) →
      files.Pairwise (fun f g => f.name ≠ g.name ∨ f.loc ≠ g.loc) →
      (s1.boot.map Prod.fst).Nodup → (s1.root.map Prod.fst).Nodup →
      ∀ f ∈ files,
        (repoGet (files.foldl (retireStep isR v) (s1, t)).1 v f.name).isSome = true ∧
        (isR = true → fsGet (files.foldl (retireStep isR v) (s1, t)).1 f = fsGet s1 f) ∧
        (isR = false → fsGet (files.foldl (retireStep isR v) (s1, t)).1 f = none) := by
  intro files
  induction files with
  | nil => intro s1 t _ _ _ _ f hf; simp at hf
  | cons f0 fs ih =>
    intro s1 t hsome hpw hbnd hrnd f hf
    obtain ⟨c0, hc0⟩ := Option.isSome_iff_exists.mp (hsome f0 (List.mem_cons_self f0 fs))
    have hpw0 : ∀ g ∈ fs, f0.name ≠ g.name ∨ f0.loc ≠ g.loc :=
      (List.pairwise_cons.mp hpw).1
    have hpwtl := (List.pairwise_cons.mp hpw).2
    by_cases hR : isR = true
    · have hstep' : retireStep isR v (s1, t) f0 =
          (repoPut s1 v f0.name c0, t ++ [.retireCopy f0.name]) := by
        simp [retireStep, hc0, hR]
      rcases List.mem_cons.mp hf with hfeq | hfs
      · rw [hfeq]
        refine ⟨?_, ?_, ?_⟩
        · simp only [List.foldl_cons, hstep']
          refine foldl_retire_inv_mem (fun st => (repoGet st v f0.name).isSome = true)
            isR v fs (fun st tr g _ hp => repoGet_retireStep_mono isR v (st, tr) g hp) _ ?_
          show (repoGet (repoPut s1 v f0.name c0) v f0.name).isSome = true
          rw [repoGet_repoPut_self]
          rfl
        · intro _
          simp only [List.foldl_cons, hstep']
          refine foldl_retire_inv_mem (fun st => fsGet st f0 = fsGet s1 f0) isR v fs
            (fun st tr g hg hp => by
              show fsGet (retireStep isR v (st, tr) g).1 f0 = fsGet s1 f0
              rw [retireStep_fsGet_other isR v (st, tr) g f0 (hpw0 g hg)]
              exact hp) _ ?_
          show fsGet (repoPut s1 v f0.name c0) f0 = fsGet s1 f0
          exact fsGet_repoPut s1 v f0.name c0 f0
        · intro hcontra
          simp [hcontra] at hR
      · have hres := ih (repoPut s1 v f0.name c0) (t ++ [.retireCopy f0.name])
          (fun g hg => by
            rw [fsGet_repoPut]
            exact hsome g (List.mem_cons_of_mem _ hg))
          hpwtl (by rw [repoPut_boot]; exact hbnd) (by rw [repoPut_root]; exact hrnd)
          f hfs
        refine ⟨?_, ?_, ?_⟩
        · simp only [List.foldl_cons, hstep']
          exact hres.1
        · intro h'
          simp only [List.foldl_cons, hstep']
          rw [hres.2.1 h', fsGet_repoPut]
        · intro hcontra
          simp [hcontra] at hR
    · have hRf : isR = false := by
        revert hR; cases isR <;> simp
      have hstep' : retireStep isR v (s1, t) f0 =
          (fsDel (repoPut s1 v f0.name c0) f0, t ++ [.retireMove f0.name]) := by
        simp [retireStep, hc0, hRf]
      rcases List.mem_cons.mp hf with hfeq | hfs
      · rw [hfeq]
        refine ⟨?_, ?_, ?_⟩
        · simp only [List.foldl_cons, hstep']
          refine foldl_retire_inv_mem (fun st => (repoGet st v f0.name).isSome = true)
            isR v fs (fun st tr g _ hp => repoGet_retireStep_mono isR v (st, tr) g hp) _ ?_
          show (repoGet (fsDel (repoPut s1 v f0.name c0) f0) v f0.name).isSome = true
          rw [repoGet_fsDel, repoGet_repoPut_self]
          rfl
        · intro hcontra
          exact absurd hcontra hR
        · intro _
          simp only [List.foldl_cons, hstep']
          refine foldl_retire_inv_mem (fun st => fsGet st f0 = none) isR v fs
            (fun st tr g hg hp => by
              show fsGet (retireStep isR v (st, tr) g).1 f0 = none
              rw [retireStep_fsGet_other isR v (st, tr) g f0 (hpw0 g hg)]
              exact hp) _ ?_
          show fsGet (fsDel (repoPut s1 v f0.name c0) f0) f0 = none
          exact fsGet_fsDel_self _ f0 (by rw [repoPut_boot]; exact hbnd)
            (by rw [repoPut_root]; exact hrnd)
      · have hres := ih (fsDel (repoPut s1 v f0.name c0) f0) (t ++ [.retireMove f0.name])
          (fun g hg => by
            rw [fsGet_fsDel_other _ g f0 ((hpw0 g hg).imp Ne.symm Ne.symm), fsGet_repoPut]
            exact hsome g (List.mem_cons_of_mem _ hg))
          hpwtl (fsDel_boot_nodup _ f0 (by rw [repoPut_boot]; exact hbnd))
          (fsDel_root_nodup _ f0 (by rw [repoPut_root]; exact hrnd)) f hfs
        refine ⟨?_, ?_, ?_⟩
        · simp only [List.foldl_cons, hstep']
          exact hres.1
        · intro hcontra
          exact absurd hcontra hR
        · intro h'
          simp only [List.foldl_cons, hstep']
          exact hres.2.2 h'

theorem vm_ne_ir (v : String) : ("vmlinuz-" ++ v) ≠ ("initrfs-" ++ v ++ ".img") := by
  intro h
  have h' := congrArg String.length h
  rw [String.length_append, String.length_append, String.length_append] at h'
  have e1 : ("vmlinuz-" : String).length = 8 := rfl
  have e2 : ("initrfs-" : String).length = 8 := rfl
  have e3 : (".img" : String).length = 4 := rfl
  rw [e1, e2, e3] at h'
  omega

theorem mem_getActiveKernelFiles (s : FS) (v : String) :
    ∀ f ∈ getActiveKernelFiles s v, (fsGet s f).isSome = true := by
  unfold getActiveKernelFiles
  refine List.forall_mem_append.mpr ⟨List.forall_mem_append.mpr ⟨?_, ?_⟩, ?_⟩
  · cases h1 : alook s.boot ("vmlinuz-" ++ v) with
    | none => simp
    | some c =>
      intro f hf
      simp only [List.mem_singleton] at hf
      subst hf
      show (alook s.boot ("vmlinuz-" ++ v)).isSome = true
      rw [h1]; rfl
  · cases h2 : alook s.boot ("initrfs-" ++ v ++ ".img") with
    | none => simp
    | some c =>
      intro f hf
      simp only [List.mem_singleton] at hf
      subst hf
      show (alook s.boot ("initrfs-" ++ v ++ ".img")).isSome = true
      rw [h2]; rfl
  · cases h3 : alook s.root ("01-kernel-" ++ v ++ ".sb") with
    | none => simp
    | some c =>
      intro f hf
      simp only [List.mem_singleton] at hf
      subst hf
      show (alook s.root ("01-kernel-" ++ v ++ ".sb")).isSome = true
      rw [h3]; rfl

theorem getActiveKernelFiles_pairwise (s : FS) (v : String) :
    (getActiveKernelFiles s v).Pairwise
      (fun f g => f.name ≠ g.name ∨ f.loc ≠ g.loc) := by
  unfold getActiveKernelFiles
  cases alook s.boot ("vmlinuz-" ++ v) <;>
    cases alook s.boot ("initrfs-" ++ v ++ ".img") <;>
    cases alook s.root ("01-kernel-" ++ v ++ ".sb") <;>
    simp [List.pairwise_cons, vm_ne_ir v]

theorem getActiveKernelFiles_repoMkdir (s : FS) (w v : String) :
    getActiveKernelFiles (repoMkdir s w) v = getActiveKernelFiles s v := by
  unfold getActiveKernelFiles
  rw [repoMkdir_boot, repoMkdir_root]

/-- Deactivating the active kernel `v` transfers each of its existing
active files into `kernels/<v>/`; when `v` is the running kernel the files
are copied and remain in the active locations, otherwise they are moved
and the active locations no longer contain them. -/
theorem deactivate_copy_vs_move (env : Env) (s : FS) (v : String)
    (hv : getActiveKernel s = some v)
    (hbnd : (s.boot.map Prod.fst).Nodup) (hrnd : (s.root.map Prod.fst).Nodup) :
    ∀ f ∈ getActiveKernelFiles s v,
      (repoGet (deactivateCurrentKernel env s).2.1 v f.name).isSome = true ∧
      (isRunningKernel env v = true →
        (fsGet (deactivateCurrentKernel env s).2.1 f).isSome = true) ∧
      (isRunningKernel env v = false →
        fsGet (deactivateCurrentKernel env s).2.1 f = none) := by
  intro f hf
  have hfiles := getActiveKernelFiles_repoMkdir s v v
  have hne : (getActiveKernelFiles (repoMkdir s v) v).isEmpty = false := by
    rw [hfiles]
    cases hgf : getActiveKernelFiles s v with
    | nil => rw [hgf] at hf; simp at hf
    | cons a l => rfl
  have hspec := retire_fold_spec (isRunningKernel env v) v
    (getActiveKernelFiles (repoMkdir s v) v) (repoMkdir s v) [Ev.mkdirRepo v]
    (fun g hg => by
      rw [fsGet_repoMkdir]
      exact mem_getActiveKernelFiles s v g (hfiles ▸ hg))
    (hfiles ▸ getActiveKernelFiles_pairwise s v)
    (by rw [repoMkdir_boot]; exact hbnd)
    (by rw [repoMkdir_root]; exact hrnd)
    f (hfiles ▸ hf)
  unfold deactivateCurrentKernel
  rw [hv]
  simp only [hne, Bool.false_eq_true, if_false]
  refine ⟨hspec.1, ?_, hspec.2.2⟩
  intro hrun
  rw [hspec.2.1 hrun, fsGet_repoMkdir]
  exact mem_getActiveKernelFiles s v f hf

theorem repoDir_repoMkdir_self (s : FS) (v : String) :
    (repoDir (repoMkdir s v) v).isSome = true := by
  unfold repoMkdir
  cases hd : repoDir s v with
  | some files => rw [hd]; rfl
  | none =>
    show (alook (aput s.kernels v []) v).isSome = true
    rw [alook_aput_self]
    rfl

theorem repoDir_repoPut_mono {s : FS} {w : String} (v' n c : String)
    (h : (repoDir s w).isSome = true) :
    (repoDir (repoPut s v' n c) w).isSome = true := by
  unfold repoPut
  cases hd : repoDir s v' with
  | some files =>
    show (alook (aput s.kernels v' (aput files n c)) w).isSome = true
    by_cases hw : w = v'
    · subst hw; rw [alook_aput_self]; rfl
    · rw [alook_aput_ne s.kernels v' w _ hw]; exact h
  | none =>
    show (alook (aput s.kernels v' [(n, c)]) w).isSome = true
    by_cases hw : w = v'
    · subst hw; rw [alook_aput_self]; rfl
    · rw [alook_aput_ne s.kernels v' w _ hw]; exact h

theorem repoDir_retireStep_mono (isR : Bool) (v : String) {w : String}
    (acc : FS × List Ev) (f : FRef)
    (h : (repoDir acc.1 w).isSome = true) :
    (repoDir (retireStep isR v acc f).1 w).isSome = true := by
  unfold retireStep
  split
  · exact h
  · split
    · exact repoDir_repoPut_mono _ _ _ h
    · show (repoDir (fsDel _ _) w).isSome = true
      unfold repoDir
      rw [fsDel_kernels]
      exact repoDir_repoPut_mono _ _ _ h

theorem retireStep_tr_acc (isR : Bool) (v : String) (st : FS) (tr : List Ev)
    (f : FRef) : ∃ d, (retireStep isR v (st, tr) f).2 = tr ++ d := by
  unfold retireStep
  split
  · exact ⟨[], by simp⟩
  · split
    · exact ⟨[.retireCopy f.name], rfl⟩
    · exact ⟨[.retireMove f.name], rfl⟩

theorem foldl_retire_tr_pre (isR : Bool) (v : String) :
    ∀ (files : List FRef) (s0 : FS) (t0 : List Ev),
      ∃ d, (files.foldl (retireStep isR v) (s0, t0)).2 = t0 ++ d := by
  intro files
  induction files with
  | nil => intro s0 t0; exact ⟨[], by simp⟩
  | cons f fs ih =>
    intro s0 t0
    obtain ⟨d0, hd0⟩ := retireStep_tr_acc isR v s0 t0 f
    obtain ⟨d1, hd1⟩ := ih (retireStep isR v (s0, t0) f).1 (t0 ++ d0)
    refine ⟨d0 ++ d1, ?_⟩
    simp only [List.foldl_cons]
    rw [show retireStep isR v (s0, t0) f =
      ((retireStep isR v (s0, t0) f).1, t0 ++ d0) from Prod.ext rfl hd0]
    rw [hd1, List.append_assoc]

theorem mem_insertSorted (x y : String) (l : List String) :
    x ∈ insertSorted y l ↔ x = y ∨ x ∈ l := by
  induction l with
  | nil => simp [insertSorted]
  | cons z zs ih =>
    unfold insertSorted
    split
    · simp
    · simp only [List.mem_cons, ih]
      tauto

theorem mem_sortStrings (x : String) (l : List String) :
    x ∈ sortStrings l ↔ x ∈ l := by
  induction l with
  | nil => simp [sortStrings]
  | cons y ys ih =>
    unfold sortStrings at ih ⊢
    simp only [List.foldr_cons, mem_insertSorted, ih, List.mem_cons]

theorem active_mem_listAllKernels (env : Env) (s : FS) (v : String)
    (hv : getActiveKernel s = some v) : v ∈ listAllKernels env s := by
  unfold listAllKernels
  rw [hv]
  rw [mem_sortStrings, List.mem_dedup]
  split
  · exact List.mem_append_left _ (List.mem_append_right _ (by simp))
  · exact List.mem_append_right _ (by simp)

theorem activateFromRepo_cases (env : Env) (s1 : FS) (v : String)
    (t1 : List Ev) :
    activateFromRepo env s1 v t1 = (false, s1, t1) ∨
    ∃ csq cvm cir,
      repoGet s1 v ("01-kernel-" ++ v ++ ".sb") = some csq ∧
      repoGet s1 v ("vmlinuz-" ++ v) = some cvm ∧
      repoGet s1 v ("initrfs-" ++ v ++ ".img") = some cir ∧
      activateFromRepo env s1 v t1 = activateFinish env s1 v csq cvm cir t1 := by
  unfold activateFromRepo
  split
  · exact Or.inl rfl
  · split
    · exact Or.inl rfl
    · next csq hsq =>
      split
      · exact Or.inl rfl
      · next cvm hvm =>
        split
        · exact Or.inl rfl
        · next cir hir => exact Or.inr ⟨csq, cvm, cir, hsq, hvm, hir, rfl⟩

theorem activateFromRepo_success (env : Env) (s1 : FS) (v : String)
    (t1 : List Ev) (csq cvm cir : String)
    (hsq : repoGet s1 v ("01-kernel-" ++ v ++ ".sb") = some csq)
    (hvm : repoGet s1 v ("vmlinuz-" ++ v) = some cvm)
    (hir : repoGet s1 v ("initrfs-" ++ v ++ ".img") = some cir) :
    activateFromRepo env s1 v t1 = activateFinish env s1 v csq cvm cir t1 := by
  unfold activateFromRepo
  rw [repoDir_isSome_of_repoGet (by rw [hsq]; rfl)]
  simp only [Bool.false_eq_true, if_false, hsq, hvm, hir]

theorem activateFromRepo_fail (env : Env) (s1 : FS) (v : String) (t1 : List Ev)
    (h : (activateFromRepo env s1 v t1).1 = false) :
    activateFromRepo env s1 v t1 = (false, s1, t1) := by
  rcases activateFromRepo_cases env s1 v t1 with hc | ⟨csq, cvm, cir, _, _, _, hc⟩
  · exact hc
  · rw [hc] at h
    exact absurd h (by simp [activateFinish])

/-- Environment where no modelled kernel is the running one. -/
def envPlain : Env := ⟨"", false, false⟩

/-- Environment where the GRUB config read/write raises. -/
def envGrubFail : Env := ⟨"", false, true⟩

/-- A root with kernel `1.0` active (marker set, all three files in the
active locations) and an empty repository. -/
def fsActive10 : FS :=
  ⟨some "1.0", [("vmlinuz-1.0", "VM"), ("initrfs-1.0.img", "IR")],
   [("01-kernel-1.0.sb", "SQ")], [], none, none⟩

/-- A root with `1.0` active and `2.0` fully packaged, plus a GRUB config. -/
def fsPack2 : FS :=
  ⟨some "1.0", [("vmlinuz-1.0", "VM"), ("initrfs-1.0.img", "IR")],
   [("01-kernel-1.0.sb", "SQ")],
   [("2.0", [("01-kernel-2.0.sb", "S2"), ("vmlinuz-2.0", "V2"),
             ("initrfs-2.0.img", "I2")])],
   none, some "linux /minios/boot/vmlinuz-1.0 quiet\n"⟩

/-- As `fsPack2` but with no bootloader configuration file at all. -/
def fsPack2nc : FS :=
  ⟨some "1.0", [("vmlinuz-1.0", "VM"), ("initrfs-1.0.img", "IR")],
   [("01-kernel-1.0.sb", "SQ")],
   [("2.0", [("01-kernel-2.0.sb", "S2"), ("vmlinuz-2.0", "V2"),
             ("initrfs-2.0.img", "I2")])],
   none, none⟩

/-- A root whose repository contains an empty directory `kernels/1.0/`. -/
def fsEmptyDir : FS := ⟨none, [], [], [("1.0", [])], none, none⟩

/-- A root whose repository contains `kernels/1.0/` with only the kernel
image, a partial file set. -/
def fsPartial : FS := ⟨none, [], [], [("1.0", [("vmlinuz-1.0", "VM")])], none, none⟩

/-- On every failure path of the embedded activation (and on every
deactivation) the active-kernel marker file is left unchanged: the marker
is only ever written as the final step of a successful activation. -/
theorem failed_activation_preserves_marker (env : Env) (s : FS) (v : String) :
    (deactivateCurrentKernel env s).2.1.marker = s.marker ∧
    ((activateKernel env s v).1 = false →
      (activateKernel env s v).2.1.marker = s.marker) := by
  refine ⟨deactivate_marker env s, ?_⟩
  intro hfail
  unfold activateKernel at hfail ⊢
  by_cases hR : isRunningKernel env v = true
  · rw [if_pos hR] at hfail ⊢
    by_cases hA : (getActiveKernel s == some v) = true
    · rw [if_pos hA] at hfail
      simp at hfail
    · rw [if_neg hA] at hfail
      rw [deactivate_ok] at hfail
      simp at hfail
  · rw [if_neg hR] at hfail ⊢
    rw [deactivate_ok] at hfail ⊢
    simp only [Bool.not_true, Bool.false_eq_true, if_false] at hfail ⊢
    rw [activateFromRepo_fail env _ v _ hfail]
    exact deactivate_marker env s

theorem failed_activation_preserves_marker_instance :
    (activateKernel envPlain fsActive10 "2.0").2.1.marker = fsActive10.marker :=
  (failed_activation_preserves_marker envPlain fsActive10 "2.0").2 (by decide)

/-- A failed activation can leave the triad in a state that is neither the
pre-operation state nor the fully applied state: activating an unpackaged
version retires the active kernel's files into the repository and then
fails, leaving the marker pointing at a version whose files are no longer
in the active locations. -/
theorem activate_failure_partial_state :
    (activateKernel envPlain fsActive10 "2.0").1 = false ∧
    (activateKernel envPlain fsActive10 "2.0").2.1 ≠ fsActive10 ∧
    (activateKernel envPlain fsActive10 "2.0").2.1.marker = some "1.0" ∧
    fsGet (activateKernel envPlain fsActive10 "2.0").2.1
      ⟨FLoc.boot, "vmlinuz-1.0"⟩ = none ∧
    fsGet fsActive10 ⟨FLoc.boot, "vmlinuz-1.0"⟩ = some "VM" := by
  decide

/-- In a normal-case activation (target packaged and not running), the
trace consists of the retirement of the previously active kernel, then the
three copies of the target's files in source order, then the bootloader
config writes, and the marker write strictly last. -/
theorem activate_normal_order (env : Env) (s : FS) (v : String)
    (hrun : isRunningKernel env v = false)
    (hsq : (repoGet s v ("01-kernel-" ++ v ++ ".sb")).isSome = true)
    (hvm : (repoGet s v ("vmlinuz-" ++ v)).isSome = true)
    (hir : (repoGet s v ("initrfs-" ++ v ++ ".img")).isSome = true) :
    (activateKernel env s v).1 = true ∧
    ∃ rtr ctr,
      (activateKernel env s v).2.2 =
        rtr ++ [Ev.copyActive ("01-kernel-" ++ v ++ ".sb"),
                Ev.copyActive ("vmlinuz-" ++ v),
                Ev.copyActive ("initrfs-" ++ v ++ ".img")] ++
          ctr ++ [Ev.markerWrite v] ∧
      (∀ e ∈ rtr, isRetireEv e = true) ∧ (∀ e ∈ ctr, isCfgEv e = true) := by
  have hsq1 := repoGet_deactivate_mono env s hsq
  have hvm1 := repoGet_deactivate_mono env s hvm
  have hir1 := repoGet_deactivate_mono env s hir
  obtain ⟨csq, hcsq⟩ := Option.isSome_iff_exists.mp hsq1
  obtain ⟨cvm, hcvm⟩ := Option.isSome_iff_exists.mp hvm1
  obtain ⟨cir, hcir⟩ := Option.isSome_iff_exists.mp hir1
  unfold activateKernel
  rw [hrun]
  simp only [Bool.false_eq_true, if_false, deactivate_ok, Bool.not_true]
  rw [activateFromRepo_success env _ v _ csq cvm cir hcsq hcvm hcir]
  unfold activateFinish
  exact ⟨rfl, _, _, rfl, deactivate_tr_retire env s,
    updateBootloaderConfigs_tr env _ v⟩

theorem activate_normal_order_instance :
    (activateKernel envPlain fsPack2 "2.0").1 = true ∧
    ∃ rtr ctr,
      (activateKernel envPlain fsPack2 "2.0").2.2 =
        rtr ++ [Ev.copyActive ("01-kernel-" ++ "2.0" ++ ".sb"),
                Ev.copyActive ("vmlinuz-" ++ "2.0"),
                Ev.copyActive ("initrfs-" ++ "2.0" ++ ".img")] ++
          ctr ++ [Ev.markerWrite "2.0"] ∧
      (∀ e ∈ rtr, isRetireEv e = true) ∧ (∀ e ∈ ctr, isCfgEv e = true) :=
  activate_normal_order envPlain fsPack2 "2.0" (by decide) (by decide)
    (by decide) (by decide)

/-- Running a deactivation with a non-empty active version always creates
the repository directory `kernels/<v>/` (as the first file operation,
before any transfer), reports success, and in particular succeeds leaving
just the empty directory behind when no active files exist for `v`. -/
theorem deactivate_ensures_repo_dir (env : Env) (s : FS) (v : String)
    (hv : getActiveKernel s = some v) :
    (repoDir (deactivateCurrentKernel env s).2.1 v).isSome = true ∧
    (∃ rest, (deactivateCurrentKernel env s).2.2 = Ev.mkdirRepo v :: rest) ∧
    (deactivateCurrentKernel env s).1 = true ∧
    (getActiveKernelFiles s v = [] →
      (deactivateCurrentKernel env s).2.1 = repoMkdir s v) := by
  unfold deactivateCurrentKernel
  rw [hv]
  by_cases hE : (getActiveKernelFiles (repoMkdir s v) v).isEmpty = true
  · simp only [hE, if_true]
    exact ⟨repoDir_repoMkdir_self s v, ⟨[], rfl⟩, by trivial, fun _ => by trivial⟩
  · have hEf : (getActiveKernelFiles (repoMkdir s v) v).isEmpty = false := by
      revert hE
      cases (getActiveKernelFiles (repoMkdir s v) v).isEmpty <;> simp
    simp only [hEf, Bool.false_eq_true, if_false]
    refine ⟨?_, ?_, by trivial, ?_⟩
    · exact foldl_retire_inv (fun st => (repoDir st v).isSome = true) _ v _
        (fun st tr f hp => repoDir_retireStep_mono _ v (st, tr) f hp) _
        (repoDir_repoMkdir_self s v)
    · obtain ⟨d, hd⟩ := foldl_retire_tr_pre (isRunningKernel env v) v
        (getActiveKernelFiles (repoMkdir s v) v) (repoMkdir s v) [Ev.mkdirRepo v]
      exact ⟨d, by rw [hd]; rfl⟩
    · intro h0
      rw [getActiveKernelFiles_repoMkdir, h0] at hEf
      simp at hEf

theorem deactivate_ensures_repo_dir_instance :
    (repoDir (deactivateCurrentKernel envPlain fsActive10).2.1 "1.0").isSome
      = true ∧
    (∃ rest, (deactivateCurrentKernel envPlain fsActive10).2.2 =
      Ev.mkdirRepo "1.0" :: rest) ∧
    (deactivateCurrentKernel envPlain fsActive10).1 = true ∧
    (getActiveKernelFiles fsActive10 "1.0" = [] →
      (deactivateCurrentKernel envPlain fsActive10).2.1 =
        repoMkdir fsActive10 "1.0") :=
  deactivate_ensures_repo_dir envPlain fsActive10 "1.0" (by decide)

theorem updateSyslinuxCfgMU_grubCfg (env : Env) (s : FS) (v : String) :
    (updateSyslinuxCfgMU env s v).2.1.grubCfg = s.grubCfg := by
  unfold updateSyslinuxCfgMU
  split
  · rfl
  · split
    · rfl
    · split <;> rfl

/-- The `is_packaged` flag of `get_kernel_info` is true as soon as the
directory `kernels/<v>` exists, even when it contains none of the three
kernel files. -/
theorem is_packaged_without_files :
    isPackagedInfo fsEmptyDir "1.0" = true ∧
    allThreePackaged fsEmptyDir "1.0" = false := by decide

/-- The `is_packaged` flag reported for a version is exactly directory
existence (file contents are not checked), while activation separately
verifies all three files and fails when any is missing from the
repository directory. -/
theorem is_packaged_dir_and_activation_requires_files (env : Env) (s : FS)
    (v : String) (hrun : isRunningKernel env v = false)
    (hmissing : allThreePackaged (deactivateCurrentKernel env s).2.1 v = false) :
    (isPackagedInfo s v = true ↔ (repoDir s v).isSome = true) ∧
    (activateKernel env s v).1 = false := by
  refine ⟨Iff.rfl, ?_⟩
  unfold activateKernel
  rw [hrun]
  simp only [Bool.false_eq_true, if_false, deactivate_ok, Bool.not_true]
  rcases activateFromRepo_cases env (deactivateCurrentKernel env s).2.1 v
      (deactivateCurrentKernel env s).2.2 with hc | ⟨csq, cvm, cir, hsq, hvm, hir, hc⟩
  · rw [hc]
  · exfalso
    unfold allThreePackaged at hmissing
    rw [hsq, hvm, hir] at hmissing
    simp at hmissing

theorem is_packaged_dir_and_activation_requires_files_instance :
    ((isPackagedInfo fsPartial "1.0" = true ↔
        (repoDir fsPartial "1.0").isSome = true) ∧
      (activateKernel envPlain fsPartial "1.0").1 = false) :=
  is_packaged_dir_and_activation_requires_files envPlain fsPartial "1.0"
    (by decide) (by decide)

/-- Activation reports success even when a present GRUB config cannot be
read or written (the update layer reports failure, which activation
discards), and also when no bootloader config file exists at all. -/
theorem activation_succeeds_despite_grub_failure :
    fsPack2.grubCfg ≠ none ∧ envGrubFail.grubFail = true ∧
    (updateBootloaderConfigs envGrubFail fsPack2 "2.0").1 = false ∧
    (activateKernel envGrubFail fsPack2 "2.0").1 = true ∧
    fsPack2nc.grubCfg = none ∧ fsPack2nc.syslinuxCfg = none ∧
    (activateKernel envPlain fsPack2nc "2.0").1 = true := by decide

/-- A packaged, non-running target activates successfully regardless of the
bootloader configuration state: activation discards the result of
`_update_bootloader_configs`, while that helper itself does report failure
when a present GRUB config cannot be read or written. -/
theorem activate_ignores_config_result (env : Env) (s : FS) (v : String)
    (hrun : isRunningKernel env v = false)
    (hsq : (repoGet s v ("01-kernel-" ++ v ++ ".sb")).isSome = true)
    (hvm : (repoGet s v ("vmlinuz-" ++ v)).isSome = true)
    (hir : (repoGet s v ("initrfs-" ++ v ++ ".img")).isSome = true) :
    (activateKernel env s v).1 = true ∧
    (∀ s' : FS, s'.grubCfg ≠ none → env.grubFail = true →
      (updateBootloaderConfigs env s' v).1 = false) := by
  constructor
  · obtain ⟨csq, hcsq⟩ :=
      Option.isSome_iff_exists.mp (repoGet_deactivate_mono env s hsq)
    obtain ⟨cvm, hcvm⟩ :=
      Option.isSome_iff_exists.mp (repoGet_deactivate_mono env s hvm)
    obtain ⟨cir, hcir⟩ :=
      Option.isSome_iff_exists.mp (repoGet_deactivate_mono env s hir)
    unfold activateKernel
    rw [hrun]
    simp only [Bool.false_eq_true, if_false, deactivate_ok, Bool.not_true]
    rw [activateFromRepo_success env _ v _ csq cvm cir hcsq hcvm hcir]
    rfl
  · intro s' hg hf
    unfold updateBootloaderConfigs
    have hgrub : (updateGrubCfgMU env (updateSyslinuxCfgMU env s' v).2.1 v).1 = false := by
      unfold updateGrubCfgMU
      rw [updateSyslinuxCfgMU_grubCfg]
      cases hcg : s'.grubCfg with
      | none => exact absurd hcg hg
      | some c => simp [hf]
    rw [hgrub]
    simp

theorem activate_ignores_config_result_instance :
    (activateKernel envGrubFail fsPack2 "2.0").1 = true ∧
    (∀ s' : FS, s'.grubCfg ≠ none → envGrubFail.grubFail = true →
      (updateBootloaderConfigs envGrubFail s' "2.0").1 = false) :=
  activate_ignores_config_result envGrubFail fsPack2 "2.0" (by decide)
    (by decide) (by decide) (by decide)

/-- Activating the version that is already active (and not running) via the
library `activate_kernel` is not a pure no-op: it reports success but moves
the active files through the repository and back, changing the state and
performing file operations. -/
theorem activate_already_active_not_pure :
    getActiveKernel fsActive10 = some "1.0" ∧
    isRunningKernel envPlain "1.0" = false ∧
    (activateKernel envPlain fsActive10 "1.0").1 = true ∧
    (activateKernel envPlain fsActive10 "1.0").2.1 ≠ fsActive10 ∧
    (activateKernel envPlain fsActive10 "1.0").2.2 ≠ [] := by decide

/-- The already-active short-circuit lives in the CLI command layer:
`activate_kernel_cmd` returns success without invoking the library
`activate_kernel` and without touching any state. -/
theorem cmd_activate_short_circuit (env : Env) (s : FS) (v : String)
    (hv : getActiveKernel s = some v) (hrun : isRunningKernel env v = false) :
    activateKernelCmd env s v = (true, s) := by
  unfold activateKernelCmd
  have hmem : (listAllKernels env s).contains v = true := by
    have hm := active_mem_listAllKernels env s v hv
    simpa using hm
  rw [hmem]
  simp [hv]

theorem cmd_activate_short_circuit_instance :
    activateKernelCmd envPlain fsActive10 "1.0" = (true, fsActive10) :=
  cmd_activate_short_circuit envPlain fsActive10 "1.0" (by decide) (by decide)

theorem deactivate_copy_vs_move_instance :
    (⟨FLoc.boot, "vmlinuz-1.0"⟩ : FRef) ∈ getActiveKernelFiles fsActive10 "1.0" ∧
    ((repoGet (deactivateCurrentKernel envPlain fsActive10).2.1 "1.0"
        (FRef.mk FLoc.boot "vmlinuz-1.0").name).isSome = true ∧
      (isRunningKernel envPlain "1.0" = true →
        (fsGet (deactivateCurrentKernel envPlain fsActive10).2.1
          ⟨FLoc.boot, "vmlinuz-1.0"⟩).isSome = true) ∧
      (isRunningKernel envPlain "1.0" = false →
        fsGet (deactivateCurrentKernel envPlain fsActive10).2.1
          ⟨FLoc.boot, "vmlinuz-1.0"⟩ = none)) :=
  ⟨by decide,
   deactivate_copy_vs_move envPlain fsActive10 "1.0" (by decide) (by decide)
     (by decide) ⟨FLoc.boot, "vmlinuz-1.0"⟩ (by decide)⟩

/-- Does `pat` occur as a contiguous substring of `s` (at any position)? -/
def hasOcc (pat : List Char) : List Char → Bool
  | [] => false
  | s@(_ :: rest) => pat.isPrefixOf s || hasOcc pat rest

theorem nil_isPrefixOf (l : List Char) : ([] : List Char).isPrefixOf l = true := by
  cases l <;> rfl

theorem isPrefixOf_nil_false {pat : List Char} (h : pat ≠ []) :
    pat.isPrefixOf ([] : List Char) = false := by
  cases pat with
  | nil => exact absurd rfl h
  | cons p ps => rfl

theorem isPrefixOf_false_of_short {pat xs : List Char} (h : xs.length < pat.length) :
    pat.isPrefixOf xs = false := by
  induction pat generalizing xs with
  | nil => simp at h
  | cons p ps ih =>
    cases xs with
    | nil => rfl
    | cons x xs' =>
      simp only [List.length_cons] at h
      simp only [List.isPrefixOf]
      rw [ih (by omega)]
      simp

theorem isPrefixOf_append_left {pat xs : List Char} (ys : List Char)
    (h : pat.isPrefixOf xs = true) : pat.isPrefixOf (xs ++ ys) = true := by
  induction pat generalizing xs with
  | nil => exact nil_isPrefixOf _
  | cons p ps ih =>
    cases xs with
    | nil => simp [List.isPrefixOf] at h
    | cons x xs' =>
      simp only [List.isPrefixOf, Bool.and_eq_true, beq_iff_eq] at h
      simp only [List.cons_append, List.isPrefixOf, Bool.and_eq_true, beq_iff_eq]
      exact ⟨h.1, ih h.2⟩

theorem isPrefixOf_of_append_le {pat xs ys : List Char}
    (hlen : pat.length ≤ xs.length)
    (h : pat.isPrefixOf (xs ++ ys) = true) : pat.isPrefixOf xs = true := by
  induction pat generalizing xs with
  | nil => exact nil_isPrefixOf _
  | cons p ps ih =>
    cases xs with
    | nil => simp at hlen
    | cons x xs' =>
      simp only [List.cons_append, List.isPrefixOf, Bool.and_eq_true, beq_iff_eq] at h
      simp only [List.isPrefixOf, Bool.and_eq_true, beq_iff_eq]
      simp only [List.length_cons] at hlen
      exact ⟨h.1, ih (by omega) h.2⟩

theorem mem_of_isPrefixOf_append {pat xs : List Char} {c : Char} {ys : List Char}
    (hlen : xs.length < pat.length)
    (h : pat.isPrefixOf (xs ++ c :: ys) = true) : c ∈ pat := by
  induction pat generalizing xs with
  | nil => simp at hlen
  | cons p ps ih =>
    cases xs with
    | nil =>
      simp only [List.nil_append, List.isPrefixOf, Bool.and_eq_true, beq_iff_eq] at h
      simp [h.1]
    | cons x xs' =>
      simp only [List.cons_append, List.isPrefixOf, Bool.and_eq_true, beq_iff_eq] at h
      simp only [List.length_cons] at hlen
      exact List.mem_cons_of_mem _ (ih (by omega) h.2)

theorem hasOcc_of_isPrefixOf_drop {pat s : List Char} {i : Nat}
    (hne : pat ≠ []) (h : pat.isPrefixOf (s.drop i) = true) :
    hasOcc pat s = true := by
  induction s generalizing i with
  | nil =>
    rw [List.drop_nil] at h
    rw [isPrefixOf_nil_false hne] at h
    exact absurd h (by simp)
  | cons c s' ih =>
    cases i with
    | zero =>
      simp only [List.drop_zero] at h
      simp [hasOcc, h]
    | succ j =>
      simp only [List.drop_succ_cons] at h
      simp [hasOcc, ih (i := j) h]

theorem isPrefixOf_drop_of_hasOcc {pat s : List Char}
    (h : hasOcc pat s = true) :
    ∃ i, i < s.length ∧ pat.isPrefixOf (s.drop i) = true := by
  induction s with
  | nil => simp [hasOcc] at h
  | cons c s' ih =>
    simp only [hasOcc, Bool.or_eq_true] at h
    rcases h with h | h
    · exact ⟨0, by simp, h⟩
    · obtain ⟨i, hi, hp⟩ := ih h
      exact ⟨i + 1, by simp; omega, by simpa using hp⟩

theorem drop_append_of_le {α : Type} :
    ∀ (i : Nat) (a b : List α), i ≤ a.length →
      (a ++ b).drop i = a.drop i ++ b := by
  intro i
  induction i with
  | zero => intro a b _; simp
  | succ j ih =>
    intro a b h
    cases a with
    | nil => simp at h
    | cons x a' =>
      simp only [List.cons_append, List.drop_succ_cons]
      exact ih a' b (by simpa using h)

/-- No occurrence of `trig` starts inside `a` when the text continues as
`a ++ b`: occurrences wholly inside `a` are excluded by `hocc`, and an
occurrence spilling past `a` would have to match `b`'s first character,
excluded by `hbar`. -/
theorem noStarts_of_barrier {trig : List Char} (hne : trig ≠ [])
    (a b : List Char) (hocc : hasOcc trig a = false)
    (hbar : ∀ c, b.head? = some c → c ∉ trig) :
    ∀ i, i < a.length → trig.isPrefixOf (a.drop i ++ b) = false := by
  intro i hi
  cases htest : trig.isPrefixOf (a.drop i ++ b) with
  | false => rfl
  | true =>
    exfalso
    by_cases hlen : trig.length ≤ (a.drop i).length
    · have := hasOcc_of_isPrefixOf_drop hne (isPrefixOf_of_append_le hlen htest)
      rw [hocc] at this
      exact absurd this (by simp)
    · cases b with
      | nil =>
        rw [List.append_nil] at htest
        rw [isPrefixOf_false_of_short (by omega)] at htest
        exact absurd htest (by simp)
      | cons c b' =>
        exact hbar c rfl (mem_of_isPrefixOf_append (by omega) htest)

theorem hasOcc_append_l {pat a : List Char} (b : List Char) (hne : pat ≠ [])
    (h : hasOcc pat a = true) : hasOcc pat (a ++ b) = true := by
  obtain ⟨i, hi, hp⟩ := isPrefixOf_drop_of_hasOcc h
  have : pat.isPrefixOf ((a ++ b).drop i) = true := by
    rw [drop_append_of_le i a b (by omega)]
    exact isPrefixOf_append_left b hp
  exact hasOcc_of_isPrefixOf_drop hne this

theorem hasOcc_append_r {pat b : List Char} (a : List Char)
    (h : hasOcc pat b = true) : hasOcc pat (a ++ b) = true := by
  induction a with
  | nil => simpa using h
  | cons x a' ih =>
    simp only [List.cons_append, hasOcc, Bool.or_eq_true]
    exact Or.inr ih

theorem hasOcc_false_left {pat a b : List Char} (hne : pat ≠ [])
    (h : hasOcc pat (a ++ b) = false) : hasOcc pat a = false := by
  cases ht : hasOcc pat a with
  | false => rfl
  | true => rw [hasOcc_append_l b hne ht] at h; exact absurd h (by simp)

theorem hasOcc_false_right {pat a b : List Char}
    (h : hasOcc pat (a ++ b) = false) : hasOcc pat b = false := by
  cases ht : hasOcc pat b with
  | false => rfl
  | true => rw [hasOcc_append_r a ht] at h; exact absurd h (by simp)

theorem hasOcc_dropLast_false {pat l : List Char} (hne : pat ≠ [])
    (h : hasOcc pat l = false) : hasOcc pat l.dropLast = false := by
  cases hl : l with
  | nil => simp [hasOcc]
  | cons x l' =>
    rw [← hl]
    have hsplit : l.dropLast ++ l.drop (l.length - 1) = l := by
      have : l.dropLast = l.take (l.length - 1) := by
        rw [hl]
        exact (List.dropLast_eq_take _).trans (by rw [← hl])
      rw [this, List.take_append_drop]
    exact hasOcc_false_left hne (hsplit ▸ h)

theorem dropLast_drop {α : Type} :
    ∀ (l : List α) (i : Nat), (l.drop i).dropLast = l.dropLast.drop i := by
  intro l
  induction l with
  | nil => intro i; simp
  | cons x l' ih =>
    intro i
    cases i with
    | zero => simp
    | succ j =>
      simp only [List.drop_succ_cons]
      rw [ih j]
      cases l' with
      | nil => simp
      | cons y l'' => simp [List.dropLast_cons₂]

theorem isPrefixOf_dropLast {pat xs : List Char}
    (hlen : pat.length < xs.length) (h : pat.isPrefixOf xs = true) :
    pat.isPrefixOf xs.dropLast = true := by
  induction pat generalizing xs with
  | nil => exact nil_isPrefixOf _
  | cons p ps ih =>
    cases xs with
    | nil => simp at hlen
    | cons x xs' =>
      simp only [List.length_cons] at hlen
      simp only [List.isPrefixOf, Bool.and_eq_true, beq_iff_eq] at h
      cases xs' with
      | nil => simp at hlen
      | cons y ys =>
        rw [List.dropLast_cons₂]
        simp only [List.isPrefixOf, Bool.and_eq_true, beq_iff_eq]
        refine ⟨h.1, ih (by simpa using hlen) h.2⟩

/-- No occurrence of `trig` starts inside `a` when `a` is followed by a
concrete block `conc` at least as long as `trig`, and `trig` does not occur
in `(a ++ conc).dropLast`: the occurrence would fit inside that list. -/
theorem noStarts_concrete_tail {trig : List Char} (hne : trig ≠ [])
    (a conc rest : List Char) (hlen : trig.length ≤ conc.length)
    (hocc : hasOcc trig ((a ++ conc).dropLast) = false) :
    ∀ i, i < a.length → trig.isPrefixOf (a.drop i ++ (conc ++ rest)) = false := by
  intro i hi
  cases htest : trig.isPrefixOf (a.drop i ++ (conc ++ rest)) with
  | false => rfl
  | true =>
    exfalso
    have h1 : trig.isPrefixOf (a.drop i ++ conc) = true := by
      have := htest
      rw [← List.append_assoc] at this
      refine isPrefixOf_of_append_le ?_ this
      have : (a.drop i).length = a.length - i := List.length_drop i a
      simp only [List.length_append, this]
      omega
    have h2 : trig.isPrefixOf ((a ++ conc).drop i) = true := by
      rw [drop_append_of_le i a conc (by omega)]
      exact h1
    have h3 : trig.isPrefixOf ((a ++ conc).dropLast.drop i) = true := by
      rw [← dropLast_drop]
      refine isPrefixOf_dropLast ?_ h2
      have hd : ((a ++ conc).drop i).length = a.length + conc.length - i := by
        rw [List.length_drop, List.length_append]
      omega
    have := hasOcc_of_isPrefixOf_drop hne h3
    rw [hocc] at this
    exact absurd this (by simp)

theorem noStarts_allSpace {trig : List Char} {t0 : Char} {ts : List Char}
    (htrig : trig = t0 :: ts) (ht0 : isPySpace t0 = false)
    (a b : List Char) (ha : ∀ c ∈ a, isPySpace c = true) :
    ∀ i, i < a.length → trig.isPrefixOf (a.drop i ++ b) = false := by
  intro i hi
  cases hd : a.drop i with
  | nil =>
    have : (a.drop i).length = a.length - i := List.length_drop i a
    rw [hd] at this
    simp at this
    omega
  | cons x xs =>
    have hx : x ∈ a := by
      have : x ∈ a.drop i := by rw [hd]; simp
      exact (List.drop_sublist i a).subset this
    have hxs : isPySpace x = true := ha x hx
    rw [htrig]
    simp only [List.cons_append, List.isPrefixOf]
    have hne : (t0 == x) = false := by
      cases hbe : t0 == x
      · rfl
      · have heq : t0 = x := eq_of_beq hbe
        rw [heq, hxs] at ht0
        exact absurd ht0 (by simp)
    rw [hne]
    simp

theorem dropLit_some_of_isPrefixOf {pat l : List Char}
    (h : pat.isPrefixOf l = true) : ∃ rest, dropLit pat l = some rest := by
  induction pat generalizing l with
  | nil => exact ⟨l, rfl⟩
  | cons p ps ih =>
    cases l with
    | nil => simp [List.isPrefixOf] at h
    | cons x l' =>
      simp only [List.isPrefixOf, Bool.and_eq_true, beq_iff_eq] at h
      obtain ⟨rest, hrest⟩ := ih h.2
      exact ⟨rest, by simp [dropLit, h.1, hrest]⟩

theorem dropLit_none_of_not_isPrefixOf {pat l : List Char}
    (h : pat.isPrefixOf l = false) : dropLit pat l = none := by
  cases hd : dropLit pat l with
  | none => rfl
  | some rest => rw [dropLit_isSome_start hd] at h; exact absurd h (by simp)

theorem isPrefixOf_false_of_litFail {pat xs : List Char} (h : litFail pat xs = true)
    (ys : List Char) : pat.isPrefixOf (xs ++ ys) = false := by
  cases hp : pat.isPrefixOf (xs ++ ys) with
  | false => rfl
  | true =>
    obtain ⟨rest, hrest⟩ := dropLit_some_of_isPrefixOf hp
    rw [dropLit_none_of_litFail h ys] at hrest
    exact absurd hrest (by simp)

theorem noStarts_litFail {trig a : List Char}
    (h : ∀ i, i < a.length → litFail trig (a.drop i) = true) (b : List Char) :
    ∀ i, i < a.length → trig.isPrefixOf (a.drop i ++ b) = false :=
  fun i hi => isPrefixOf_false_of_litFail (h i hi) b

theorem drop_append_ge {α : Type} :
    ∀ (i : Nat) (a b : List α), a.length ≤ i →
      (a ++ b).drop i = b.drop (i - a.length) := by
  intro i
  induction i with
  | zero =>
    intro a b h
    cases a with
    | nil => simp
    | cons x a' => simp at h
  | succ j ih =>
    intro a b h
    cases a with
    | nil => simp
    | cons x a' =>
      simp only [List.cons_append, List.drop_succ_cons]
      rw [ih a' b (by simpa using h)]
      simp

theorem hasOcc_append_false {trig : List Char} (hne : trig ≠ []) (a b : List Char)
    (h1 : hasOcc trig a = false) (h2 : hasOcc trig b = false)
    (hbar : ∀ c, b.head? = some c → c ∉ trig) :
    hasOcc trig (a ++ b) = false := by
  cases ht : hasOcc trig (a ++ b) with
  | false => rfl
  | true =>
    exfalso
    obtain ⟨i, hi, hp⟩ := isPrefixOf_drop_of_hasOcc ht
    by_cases hia : i < a.length
    · rw [drop_append_of_le i a b (by omega)] at hp
      rw [noStarts_of_barrier hne a b h1 hbar i hia] at hp
      exact absurd hp (by simp)
    · rw [drop_append_ge i a b (by omega)] at hp
      have := hasOcc_of_isPrefixOf_drop hne hp
      rw [h2] at this
      exact absurd this (by simp)

theorem isPrefixOf_of_append_isPrefixOf {p q l : List Char}
    (h : (p ++ q).isPrefixOf l = true) : p.isPrefixOf l = true := by
  induction p generalizing l with
  | nil => exact nil_isPrefixOf _
  | cons x p' ih =>
    cases l with
    | nil => simp [List.isPrefixOf] at h
    | cons y l' =>
      simp only [List.cons_append, List.isPrefixOf, Bool.and_eq_true, beq_iff_eq] at h ⊢
      exact ⟨h.1, ih h.2⟩

theorem hasOcc_false_of_longer {p q l : List Char} (hne : p ≠ [])
    (h : hasOcc p l = false) : hasOcc (p ++ q) l = false := by
  cases ht : hasOcc (p ++ q) l with
  | false => rfl
  | true =>
    exfalso
    obtain ⟨i, hi, hp⟩ := isPrefixOf_drop_of_hasOcc ht
    have := hasOcc_of_isPrefixOf_drop hne (isPrefixOf_of_append_isPrefixOf hp)
    rw [h] at this
    exact absurd this (by simp)

/-- The literal pieces of the two SYSLINUX patterns. -/
def ktLit : List Char := "KERNEL".data

def fixkLit : List Char := "/minios/boot/vmlinuz-".data

def ilitLit : List Char := "initrd=/minios/boot/initrfs-".data

def it7Lit : List Char := "initrd=".data

/-- A well-formed SYSLINUX configuration is modelled as a sequence of
newline-terminated lines: free lines carrying no pattern trigger, `KERNEL`
boot lines, and `initrd=` lines (as in `APPEND` directives). -/
inductive SLine where
  | lit (s : List Char)
  | kern (pre sp w : List Char)
  | initrd (pre w post : List Char)

/-- Rendered text of a configuration, each line terminated by a newline. -/
def renderConfig : List SLine → List Char
  | [] => []
  | .lit s :: ls => s ++ '\n' :: renderConfig ls
  | .kern pre sp w :: ls =>
    pre ++ (ktLit ++ (sp ++ (fixkLit ++ (w ++ '\n' :: renderConfig ls))))
  | .initrd pre w post :: ls =>
    pre ++ (ilitLit ++ (w ++ (post ++ '\n' :: renderConfig ls)))

/-- Well-formedness of one config line: version tokens are non-empty runs
of non-whitespace characters terminated by whitespace, whitespace runs are
non-empty, and no stray occurrence of a pattern trigger appears anywhere
outside the designated position of the line. -/
def wfSLine : SLine → Bool
  | .lit s => !(hasOcc ktLit s) && !(hasOcc it7Lit s)
  | .kern pre sp w =>
    !(hasOcc ktLit ((pre ++ ktLit).dropLast)) && !(hasOcc it7Lit (pre ++ ktLit)) &&
    !sp.isEmpty && sp.all isPySpace &&
    !w.isEmpty && w.all (fun c => !(isPySpace c)) &&
    !(hasOcc ktLit w) && !(hasOcc it7Lit w)
  | .initrd pre w post =>
    !(hasOcc ilitLit ((pre ++ ilitLit).dropLast)) && !(hasOcc ktLit (pre ++ ilitLit)) &&
    !w.isEmpty && w.all (fun c => !(isPySpace c)) &&
    (match post with | [] => true | c :: _ => isPySpace c) &&
    !(hasOcc ktLit (w ++ post)) && !(hasOcc it7Lit (w ++ post))

/-- A version string acceptable as a substitution target: non-empty, free
of whitespace, and introducing no pattern trigger (also when suffixed with
`.img` as the initrd replacement does). -/
def validVer (v : String) : Bool :=
  !v.data.isEmpty && v.data.all (fun c => !(isPySpace c)) &&
  !(hasOcc ktLit (v.data ++ ".img".data)) && !(hasOcc it7Lit (v.data ++ ".img".data)) &&
  !(hasOcc ktLit v.data) && !(hasOcc it7Lit v.data)

/-- Effect of the `KERNEL` substitution pass on one line. -/
def mapK (v : String) : SLine → SLine
  | .kern pre sp _ => .kern pre sp v.data
  | l => l

/-- Effect of the `initrd=` substitution pass on one line. -/
def mapI (v : String) : SLine → SLine
  | .initrd pre _ post => .initrd pre ((v ++ ".img").data) post
  | l => l

/-- Combined effect of the SYSLINUX rewrite on one line: only the version
tokens of `KERNEL` and `initrd=` occurrence lines change. -/
def rewriteSLine (v : String) (l : SLine) : SLine := mapI v (mapK v l)

theorem takeWhile_append_all {p : Char → Bool} {a : List Char} (b : List Char)
    (h : ∀ c ∈ a, p c = true) : (a ++ b).takeWhile p = a ++ b.takeWhile p := by
  induction a with
  | nil => simp
  | cons x a' ih =>
    simp only [List.cons_append, List.takeWhile_cons]
    rw [h x (by simp)]
    simp only [if_true]
    rw [ih (fun c hc => h c (by simp [hc]))]

theorem dropWhile_append_all {p : Char → Bool} {a : List Char} (b : List Char)
    (h : ∀ c ∈ a, p c = true) : (a ++ b).dropWhile p = b.dropWhile p := by
  induction a with
  | nil => simp
  | cons x a' ih =>
    simp only [List.cons_append, List.dropWhile_cons]
    rw [h x (by simp)]
    simp only [if_true]
    exact ih (fun c hc => h c (by simp [hc]))

theorem takeWhile_head_false {p : Char → Bool} {c : Char} (b : List Char)
    (h : p c = false) : (c :: b).takeWhile p = [] := by
  simp [List.takeWhile_cons, h]

theorem dropWhile_head_false {p : Char → Bool} {c : Char} (b : List Char)
    (h : p c = false) : (c :: b).dropWhile p = c :: b := by
  simp [List.dropWhile_cons, h]

theorem matchSpaced_none_of_dropLit {lit1 lit2 cs : List Char}
    (h : dropLit lit1 cs = none) : matchSpaced lit1 lit2 cs = none := by
  unfold matchSpaced
  simp only [h]

theorem matchRun_none_of_dropLit {lit cs : List Char}
    (h : dropLit lit cs = none) : matchRun lit cs = none := by
  unfold matchRun
  simp only [h]

theorem subSpaced_append_noStarts (lit1 lit2 repl : List Char) :
    ∀ (a b : List Char),
      (∀ i, i < a.length → lit1.isPrefixOf (a.drop i ++ b) = false) →
      subSpaced lit1 lit2 repl (a ++ b) = a ++ subSpaced lit1 lit2 repl b := by
  intro a
  induction a with
  | nil => intro b _; simp
  | cons c a' ih =>
    intro b h
    have h0 : lit1.isPrefixOf (c :: (a' ++ b)) = false := h 0 (by simp)
    have hm : matchSpaced lit1 lit2 (c :: (a' ++ b)) = none :=
      matchSpaced_none_of_dropLit (dropLit_none_of_not_isPrefixOf h0)
    show subSpaced lit1 lit2 repl (c :: (a' ++ b)) = c :: (a' ++ subSpaced lit1 lit2 repl b)
    rw [subSpaced_no_match hm]
    rw [ih b (fun i hi => h (i + 1) (by simp only [List.length_cons]; omega))]

theorem subRun_append_noStarts (lit repl : List Char) :
    ∀ (a b : List Char),
      (∀ i, i < a.length → lit.isPrefixOf (a.drop i ++ b) = false) →
      subRun lit repl (a ++ b) = a ++ subRun lit repl b := by
  intro a
  induction a with
  | nil => intro b _; simp
  | cons c a' ih =>
    intro b h
    have h0 : lit.isPrefixOf (c :: (a' ++ b)) = false := h 0 (by simp)
    have hm : matchRun lit (c :: (a' ++ b)) = none :=
      matchRun_none_of_dropLit (dropLit_none_of_not_isPrefixOf h0)
    show subRun lit repl (c :: (a' ++ b)) = c :: (a' ++ subRun lit repl b)
    rw [subRun_no_match hm]
    rw [ih b (fun i hi => h (i + 1) (by simp only [List.length_cons]; omega))]

theorem subSpaced_cons_nl (lit2 repl : List Char) (b : List Char) :
    subSpaced ktLit lit2 repl ('\n' :: b) = '\n' :: subSpaced ktLit lit2 repl b := by
  have h : dropLit ktLit ('\n' :: b) = none := by
    rw [show ktLit = 'K' :: "ERNEL".data from rfl]
    exact dropLit_none_head (by decide)
  exact subSpaced_no_match (matchSpaced_none_of_dropLit h)

theorem subRun_cons_nl (repl : List Char) (b : List Char) :
    subRun ilitLit repl ('\n' :: b) = '\n' :: subRun ilitLit repl b := by
  have h : dropLit ilitLit ('\n' :: b) = none := by
    rw [show ilitLit = 'i' :: "nitrd=/minios/boot/initrfs-".data from rfl]
    exact dropLit_none_head (by decide)
  exact subRun_no_match (matchRun_none_of_dropLit h)

theorem matchSpaced_at_kern (sp w rest : List Char)
    (hspE : sp.isEmpty = false) (hspall : sp.all isPySpace = true)
    (hwE : w.isEmpty = false) (hwall : w.all (fun c => !(isPySpace c)) = true) :
    matchSpaced ktLit fixkLit
      (ktLit ++ (sp ++ (fixkLit ++ (w ++ '\n' :: rest)))) =
      some (sp, '\n' :: rest) := by
  have hsp' : ∀ c ∈ sp, isPySpace c = true := by
    intro c hc
    exact List.all_eq_true.mp hspall c hc
  have hw' : ∀ c ∈ w, (!(isPySpace c)) = true := by
    intro c hc
    exact List.all_eq_true.mp hwall c hc
  have ht1 : (sp ++ (fixkLit ++ (w ++ '\n' :: rest))).takeWhile isPySpace = sp := by
    rw [takeWhile_append_all _ hsp']
    rw [show fixkLit = '/' :: "minios/boot/vmlinuz-".data from rfl]
    rw [List.cons_append, takeWhile_head_false _ (by decide)]
    simp
  have hd1 : (sp ++ (fixkLit ++ (w ++ '\n' :: rest))).dropWhile isPySpace =
      fixkLit ++ (w ++ '\n' :: rest) := by
    rw [dropWhile_append_all _ hsp']
    conv_lhs => rw [show fixkLit = '/' :: "minios/boot/vmlinuz-".data from rfl,
      List.cons_append]
    rw [dropWhile_head_false _ (by decide)]
    rfl
  have ht2 : (w ++ '\n' :: rest).takeWhile (fun c => !(isPySpace c)) = w := by
    rw [takeWhile_append_all _ hw', takeWhile_head_false _ (by decide)]
    simp
  have hd2 : (w ++ '\n' :: rest).dropWhile (fun c => !(isPySpace c)) = '\n' :: rest := by
    rw [dropWhile_append_all _ hw', dropWhile_head_false _ (by decide)]
  unfold matchSpaced
  simp only [dropLit_self, ht1, hd1, hspE, dropLit_self, ht2, hd2, hwE,
    Bool.false_eq_true, if_false]

theorem matchRun_at_initrd (w post rest : List Char)
    (hwE : w.isEmpty = false) (hwall : w.all (fun c => !(isPySpace c)) = true)
    (hpost : (match post with | [] => true | c :: _ => isPySpace c) = true) :
    matchRun ilitLit (ilitLit ++ (w ++ (post ++ '\n' :: rest))) =
      some (post ++ '\n' :: rest) := by
  have hw' : ∀ c ∈ w, (!(isPySpace c)) = true := by
    intro c hc
    exact List.all_eq_true.mp hwall c hc
  have htail : (post ++ '\n' :: rest).takeWhile (fun c => !(isPySpace c)) = [] := by
    cases post with
    | nil => simp only [List.nil_append]; exact takeWhile_head_false _ (by decide)
    | cons c post' =>
      simp only at hpost
      simp only [List.cons_append]
      exact takeWhile_head_false _ (by simp [hpost])
  have hdtail : (post ++ '\n' :: rest).dropWhile (fun c => !(isPySpace c)) =
      post ++ '\n' :: rest := by
    cases post with
    | nil => simp only [List.nil_append]; exact dropWhile_head_false _ (by decide)
    | cons c post' =>
      simp only at hpost
      simp only [List.cons_append]
      exact dropWhile_head_false _ (by simp [hpost])
  have ht : (w ++ (post ++ '\n' :: rest)).takeWhile (fun c => !(isPySpace c)) = w := by
    rw [takeWhile_append_all _ hw', htail]
    simp
  have hd : (w ++ (post ++ '\n' :: rest)).dropWhile (fun c => !(isPySpace c)) =
      post ++ '\n' :: rest := by
    rw [dropWhile_append_all _ hw', hdtail]
  unfold matchRun
  simp only [dropLit_self, ht, hd, hwE, Bool.false_eq_true, if_false]

theorem ktLit_no_space : ∀ c ∈ ktLit, isPySpace c = false := by decide

theorem ilitLit_no_space : ∀ c ∈ ilitLit, isPySpace c = false := by decide

theorem ktLit_litFail_ilit : ∀ i, i < ilitLit.length →
    litFail ktLit (ilitLit.drop i) = true := by decide

theorem ilitLit_litFail_fixk : ∀ i, i < fixkLit.length →
    litFail ilitLit (fixkLit.drop i) = true := by decide

theorem subSpaced_match_kt {lit2 repl : List Char} {X sp rest : List Char}
    (h : matchSpaced ktLit lit2 (ktLit ++ X) = some (sp, rest)) :
    subSpaced ktLit lit2 repl (ktLit ++ X) =
      ktLit ++ sp ++ lit2 ++ repl ++ subSpaced ktLit lit2 repl rest := by
  have e : ktLit ++ X = 'K' :: ("ERNEL".data ++ X) := rfl
  rw [e] at h ⊢
  exact subSpaced_match h

theorem subRun_match_ilit {repl : List Char} {X rest : List Char}
    (h : matchRun ilitLit (ilitLit ++ X) = some rest) :
    subRun ilitLit repl (ilitLit ++ X) =
      ilitLit ++ repl ++ subRun ilitLit repl rest := by
  have e : ilitLit ++ X = 'i' :: ("nitrd=/minios/boot/initrfs-".data ++ X) := rfl
  rw [e] at h ⊢
  exact subRun_match h

/-- Effect of the `KERNEL` substitution pass on a whole rendered
configuration: exactly the version token of each `KERNEL` line changes. -/
theorem subK_renderConfig (v : String) :
    ∀ ls : List SLine, (∀ l ∈ ls, wfSLine l = true) →
      subSpaced ktLit fixkLit v.data (renderConfig ls) =
        renderConfig (ls.map (mapK v)) := by
  intro ls
  induction ls with
  | nil => intro _; rfl
  | cons l ls ih =>
    intro hwf
    have hl := hwf l (by simp)
    have hls : ∀ x ∈ ls, wfSLine x = true := fun x hx => hwf x (by simp [hx])
    cases l with
    | lit s =>
      simp only [wfSLine, Bool.and_eq_true, Bool.not_eq_true'] at hl
      show subSpaced ktLit fixkLit v.data (s ++ '\n' :: renderConfig ls) =
        s ++ '\n' :: renderConfig (ls.map (mapK v))
      rw [subSpaced_append_noStarts ktLit fixkLit v.data s ('\n' :: renderConfig ls)
        (noStarts_of_barrier (by decide) s _ hl.1 (fun c hc => by
          simp only [List.head?] at hc
          cases hc
          decide))]
      rw [subSpaced_cons_nl, ih hls]
    | kern pre sp w =>
      simp only [wfSLine, Bool.and_eq_true, Bool.not_eq_true'] at hl
      obtain ⟨⟨⟨⟨⟨⟨⟨h1, h2⟩, h3⟩, h4⟩, h5⟩, h6⟩, h7⟩, h8⟩ := hl
      show subSpaced ktLit fixkLit v.data
          (pre ++ (ktLit ++ (sp ++ (fixkLit ++ (w ++ '\n' :: renderConfig ls))))) =
        pre ++ (ktLit ++ (sp ++ (fixkLit ++
          (v.data ++ '\n' :: renderConfig (ls.map (mapK v))))))
      rw [subSpaced_append_noStarts ktLit fixkLit v.data pre _
        (noStarts_concrete_tail (by decide) pre ktLit _ le_rfl h1)]
      rw [subSpaced_match_kt (matchSpaced_at_kern sp w (renderConfig ls) h3 h4 h5 h6)]
      rw [subSpaced_cons_nl, ih hls]
      simp [List.append_assoc]
    | initrd pre w post =>
      simp only [wfSLine, Bool.and_eq_true, Bool.not_eq_true'] at hl
      obtain ⟨⟨⟨⟨⟨⟨h1, h2⟩, h3⟩, h4⟩, h5⟩, h6⟩, h7⟩ := hl
      show subSpaced ktLit fixkLit v.data
          (pre ++ (ilitLit ++ (w ++ (post ++ '\n' :: renderConfig ls)))) =
        pre ++ (ilitLit ++ (w ++ (post ++ '\n' :: renderConfig (ls.map (mapK v)))))
      rw [subSpaced_append_noStarts ktLit fixkLit v.data pre _
        (noStarts_concrete_tail (by decide) pre ilitLit _ (by decide)
          (hasOcc_dropLast_false (by decide) h2))]
      rw [subSpaced_append_noStarts ktLit fixkLit v.data ilitLit _
        (noStarts_litFail ktLit_litFail_ilit _)]
      rw [subSpaced_append_noStarts ktLit fixkLit v.data w _
        (noStarts_of_barrier (by decide) w _ (hasOcc_false_left (by decide) h6)
          (fun c hc hmem => by
            cases post with
            | nil =>
              simp only [List.nil_append, List.head?] at hc
              cases hc
              exact absurd hmem (by decide)
            | cons p post' =>
              simp only [List.cons_append, List.head?] at hc
              cases hc
              simp only at h5
              rw [ktLit_no_space c hmem] at h5
              exact absurd h5 (by simp)))]
      rw [subSpaced_append_noStarts ktLit fixkLit v.data post _
        (noStarts_of_barrier (by decide) post _ (hasOcc_false_right h6)
          (fun c hc => by
            simp only [List.head?] at hc
            cases hc
            decide))]
      rw [subSpaced_cons_nl, ih hls]

theorem it7Lit_no_space : ∀ c ∈ it7Lit, isPySpace c = false := by decide

theorem noStarts_longer {p q : List Char} (a b : List Char)
    (h : ∀ i, i < a.length → p.isPrefixOf (a.drop i ++ b) = false) :
    ∀ i, i < a.length → (p ++ q).isPrefixOf (a.drop i ++ b) = false := by
  intro i hi
  cases ht : (p ++ q).isPrefixOf (a.drop i ++ b) with
  | false => rfl
  | true =>
    exfalso
    have hp := isPrefixOf_of_append_isPrefixOf ht
    rw [h i hi] at hp
    exact absurd hp (by simp)

/-- Effect of the `initrd=` substitution pass on a whole rendered
configuration: exactly the version token of each `initrd=` line changes. -/
theorem subI_renderConfig (v : String) :
    ∀ ls : List SLine, (∀ l ∈ ls, wfSLine l = true) →
      subRun ilitLit ((v ++ ".img").data) (renderConfig ls) =
        renderConfig (ls.map (mapI v)) := by
  intro ls
  induction ls with
  | nil => intro _; rfl
  | cons l ls ih =>
    intro hwf
    have hl := hwf l (by simp)
    have hls : ∀ x ∈ ls, wfSLine x = true := fun x hx => hwf x (by simp [hx])
    cases l with
    | lit s =>
      simp only [wfSLine, Bool.and_eq_true, Bool.not_eq_true'] at hl
      have hocc : hasOcc ilitLit s = false := by
        rw [show ilitLit = it7Lit ++ "/minios/boot/initrfs-".data from rfl]
        exact hasOcc_false_of_longer (by decide) hl.2
      show subRun ilitLit ((v ++ ".img").data) (s ++ '\n' :: renderConfig ls) =
        s ++ '\n' :: renderConfig (ls.map (mapI v))
      rw [subRun_append_noStarts ilitLit ((v ++ ".img").data) s ('\n' :: renderConfig ls)
        (noStarts_of_barrier (by decide) s _ hocc (fun c hc => by
          simp only [List.head?] at hc
          cases hc
          decide))]
      rw [subRun_cons_nl, ih hls]
    | kern pre sp w =>
      simp only [wfSLine, Bool.and_eq_true, Bool.not_eq_true'] at hl
      obtain ⟨⟨⟨⟨⟨⟨⟨h1, h2⟩, h3⟩, h4⟩, h5⟩, h6⟩, h7⟩, h8⟩ := hl
      have hsp' : ∀ c ∈ sp, isPySpace c = true := by
        intro c hc
        exact List.all_eq_true.mp h4 c hc
      have hwI : hasOcc ilitLit w = false := by
        rw [show ilitLit = it7Lit ++ "/minios/boot/initrfs-".data from rfl]
        exact hasOcc_false_of_longer (by decide) h8
      have hbarSp : ∀ c, (sp ++ (fixkLit ++ (w ++ '\n' :: renderConfig ls))).head? =
          some c → c ∉ it7Lit := by
        intro c hc hmem
        cases sp with
        | nil => simp [List.isEmpty] at h3
        | cons s0 sp' =>
          simp only [List.cons_append, List.head?] at hc
          cases hc
          have hs0 : isPySpace c = true := hsp' c (by simp)
          have : isPySpace c = false := it7Lit_no_space c hmem
          rw [this] at hs0
          exact absurd hs0 (by simp)
      show subRun ilitLit ((v ++ ".img").data)
          (pre ++ (ktLit ++ (sp ++ (fixkLit ++ (w ++ '\n' :: renderConfig ls))))) =
        pre ++ (ktLit ++ (sp ++ (fixkLit ++ (w ++ '\n' :: renderConfig (ls.map (mapI v))))))
      rw [show pre ++ (ktLit ++ (sp ++ (fixkLit ++ (w ++ '\n' :: renderConfig ls)))) =
        (pre ++ ktLit) ++ (sp ++ (fixkLit ++ (w ++ '\n' :: renderConfig ls))) from
        (List.append_assoc pre ktLit _).symm]
      rw [subRun_append_noStarts ilitLit ((v ++ ".img").data) (pre ++ ktLit) _
        (by
          rw [show ilitLit = it7Lit ++ "/minios/boot/initrfs-".data from rfl]
          exact noStarts_longer (pre ++ ktLit) _
            (noStarts_of_barrier (by decide) (pre ++ ktLit) _ h2 hbarSp))]
      rw [subRun_append_noStarts ilitLit ((v ++ ".img").data) sp _
        (noStarts_allSpace rfl (by decide) sp _ hsp')]
      rw [subRun_append_noStarts ilitLit ((v ++ ".img").data) fixkLit _
        (noStarts_litFail ilitLit_litFail_fixk _)]
      rw [subRun_append_noStarts ilitLit ((v ++ ".img").data) w _
        (noStarts_of_barrier (by decide) w _ hwI (fun c hc => by
          simp only [List.head?] at hc
          cases hc
          decide))]
      rw [subRun_cons_nl, ih hls]
      simp [List.append_assoc]
    | initrd pre w post =>
      simp only [wfSLine, Bool.and_eq_true, Bool.not_eq_true'] at hl
      obtain ⟨⟨⟨⟨⟨⟨h1, h2⟩, h3⟩, h4⟩, h5⟩, h6⟩, h7⟩ := hl
      have hpostI : hasOcc ilitLit post = false := by
        rw [show ilitLit = it7Lit ++ "/minios/boot/initrfs-".data from rfl]
        exact hasOcc_false_of_longer (by decide) (hasOcc_false_right h7)
      show subRun ilitLit ((v ++ ".img").data)
          (pre ++ (ilitLit ++ (w ++ (post ++ '\n' :: renderConfig ls)))) =
        pre ++ (ilitLit ++ ((v ++ ".img").data ++
          (post ++ '\n' :: renderConfig (ls.map (mapI v)))))
      rw [subRun_append_noStarts ilitLit ((v ++ ".img").data) pre _
        (noStarts_concrete_tail (by decide) pre ilitLit _ le_rfl h1)]
      rw [subRun_match_ilit (matchRun_at_initrd w post (renderConfig ls) h3 h4 h5)]
      rw [subRun_append_noStarts ilitLit ((v ++ ".img").data) post _
        (noStarts_of_barrier (by decide) post _ hpostI (fun c hc => by
          simp only [List.head?] at hc
          cases hc
          decide))]
      rw [subRun_cons_nl, ih hls]
      simp [List.append_assoc]

theorem wf_mapK {v : String} {l : SLine} (hwf : wfSLine l = true)
    (hv : validVer v = true) : wfSLine (mapK v l) = true := by
  simp only [validVer, Bool.and_eq_true, Bool.not_eq_true'] at hv
  obtain ⟨⟨⟨⟨⟨g1, g2⟩, g3⟩, g4⟩, g5⟩, g6⟩ := hv
  cases l with
  | lit s => exact hwf
  | initrd pre w post => exact hwf
  | kern pre sp w =>
    simp only [wfSLine, Bool.and_eq_true, Bool.not_eq_true'] at hwf
    simp only [mapK, wfSLine, Bool.and_eq_true, Bool.not_eq_true']
    obtain ⟨⟨⟨⟨⟨⟨⟨h1, h2⟩, h3⟩, h4⟩, _⟩, _⟩, _⟩, _⟩ := hwf
    exact ⟨⟨⟨⟨⟨⟨⟨h1, h2⟩, h3⟩, h4⟩, g1⟩, g2⟩, g5⟩, g6⟩

theorem wf_mapI {v : String} {l : SLine} (hwf : wfSLine l = true)
    (hv : validVer v = true) : wfSLine (mapI v l) = true := by
  simp only [validVer, Bool.and_eq_true, Bool.not_eq_true'] at hv
  obtain ⟨⟨⟨⟨⟨g1, g2⟩, g3⟩, g4⟩, g5⟩, g6⟩ := hv
  cases l with
  | lit s => exact hwf
  | kern pre sp w => exact hwf
  | initrd pre w post =>
    simp only [wfSLine, Bool.and_eq_true, Bool.not_eq_true'] at hwf
    simp only [mapI, wfSLine, Bool.and_eq_true, Bool.not_eq_true']
    obtain ⟨⟨⟨⟨⟨⟨h1, h2⟩, _⟩, _⟩, h5⟩, h6⟩, h7⟩ := hwf
    have hdata : (v ++ ".img").data = v.data ++ ".img".data :=
      String.data_append v ".img"
    refine ⟨⟨⟨⟨⟨⟨h1, h2⟩, ?_⟩, ?_⟩, h5⟩, ?_⟩, ?_⟩
    · rw [hdata]
      cases v.data <;> rfl
    · rw [hdata, List.all_append, g2, Bool.true_and]
      decide
    · rw [hdata]
      refine hasOcc_append_false (by decide) _ post g3 (hasOcc_false_right h6) ?_
      intro c hc hmem
      cases post with
      | nil => simp at hc
      | cons p post' =>
        simp only [List.head?] at hc
        cases hc
        simp only at h5
        rw [ktLit_no_space c hmem] at h5
        exact absurd h5 (by simp)
    · rw [hdata]
      refine hasOcc_append_false (by decide) _ post g4 (hasOcc_false_right h7) ?_
      intro c hc hmem
      cases post with
      | nil => simp at hc
      | cons p post' =>
        simp only [List.head?] at hc
        cases hc
        simp only at h5
        rw [it7Lit_no_space c hmem] at h5
        exact absurd h5 (by simp)

theorem wf_rewriteSLine {v : String} {l : SLine} (hwf : wfSLine l = true)
    (hv : validVer v = true) : wfSLine (rewriteSLine v l) = true :=
  wf_mapI (wf_mapK hwf hv) hv

/-- Characterization of the SYSLINUX rewrite on a well-formed rendered
configuration: the result is the same configuration with exactly the
version token of each `KERNEL` and each `initrd=` line replaced. -/
theorem subSyslinux_renderConfig (v : String) (ls : List SLine)
    (hwf : ∀ l ∈ ls, wfSLine l = true) (hv : validVer v = true) :
    subSyslinux v (renderConfig ls) = renderConfig (ls.map (rewriteSLine v)) := by
  show subRun ilitLit ((v ++ ".img").data)
      (subSpaced ktLit fixkLit v.data (renderConfig ls)) = _
  rw [subK_renderConfig v ls hwf]
  rw [subI_renderConfig v (ls.map (mapK v))
    (fun l hl => by
      obtain ⟨l0, hl0, hleq⟩ := List.mem_map.mp hl
      rw [← hleq]
      exact wf_mapK (hwf l0 hl0) hv)]
  rw [List.map_map]
  rfl

theorem rewriteSLine_idem (v : String) (l : SLine) :
    rewriteSLine v (rewriteSLine v l) = rewriteSLine v l := by
  cases l <;> rfl

/-- A concrete well-formed SYSLINUX configuration (a free directive line, a
`KERNEL` line and an `APPEND … initrd=…` line). -/
def ls0C6 : List SLine :=
  [SLine.lit "DEFAULT minios".data,
   SLine.kern [] " ".data "1.0".data,
   SLine.initrd "  APPEND ".data "1.0.img".data " root=/dev/ram0".data]

/-- A one-line GRUB variable assignment with a quoted kernel path. -/
def exQuoted : String := "set linux_image=\"/minios/boot/vmlinuz-1.0\"\n"

/-- C6: for well-formed SYSLINUX configuration texts the rewrite to version
`v` changes exactly the version token of each `KERNEL` and each `initrd=`
pattern occurrence, preserving every other character (prefix, whitespace,
surrounding syntax), and lines without a pattern occurrence are untouched. -/
theorem syslinux_rewrite_changes_only_version_tokens (v : String) (ls : List SLine)
    (hwf : ∀ l ∈ ls, wfSLine l = true) (hv : validVer v = true) :
    syslinuxRewrite v ⟨renderConfig ls⟩ = ⟨renderConfig (ls.map (rewriteSLine v))⟩ ∧
    ∀ s, rewriteSLine v (SLine.lit s) = SLine.lit s := by
  constructor
  · show (⟨subSyslinux v (renderConfig ls)⟩ : String) = _
    rw [subSyslinux_renderConfig v ls hwf hv]
  · intro s
    rfl

theorem syslinux_rewrite_changes_only_version_tokens_instance :
    (∀ l ∈ ls0C6, wfSLine l = true) ∧ validVer "6.2.0" = true ∧
    (syslinuxRewrite "6.2.0" ⟨renderConfig ls0C6⟩ =
       ⟨renderConfig (ls0C6.map (rewriteSLine "6.2.0"))⟩ ∧
     ∀ s, rewriteSLine "6.2.0" (SLine.lit s) = SLine.lit s) :=
  ⟨by decide, by decide,
   syslinux_rewrite_changes_only_version_tokens "6.2.0" ls0C6 (by decide) (by decide)⟩

/-- C6 counterexample: the GRUB rewriter of `_update_grub_config` does not
preserve the quoting around a matched version suffix: on a quoted
`set linux_image="…"` line the closing quote is deleted (the later bare
`(/minios/boot/)vmlinuz-[^\s]+` pattern swallows it), so bytes outside the
version token change. -/
theorem grub_rewrite_deletes_closing_quote :
    grubRewriteMU "6.2.0" exQuoted = "set linux_image=\"/minios/boot/vmlinuz-6.2.0\n" ∧
    grubRewriteMU "6.2.0" exQuoted ≠
      "set linux_image=\"/minios/boot/vmlinuz-6.2.0\"\n" := by
  constructor
  · decide
  · decide

/-- A concrete well-formed SYSLINUX configuration for the idempotence
instance. -/
def ls0C7 : List SLine :=
  [SLine.lit "PROMPT 0".data,
   SLine.kern "LABEL minios\n".data " ".data "5.10.0".data,
   SLine.initrd "APPEND ".data "5.10.0.img".data " quiet".data]

/-- A SYSLINUX config text that already references version `6.2.0`. -/
def cfgC7 : String :=
  "KERNEL /minios/boot/vmlinuz-6.2.0\nAPPEND initrd=/minios/boot/initrfs-6.2.0.img root=1\n"

/-- A filesystem whose only bootloader config is the already-current
`syslinux.cfg`. -/
def fsC7 : FS := ⟨none, [], [], [], some cfgC7, none⟩

/-- C7: on well-formed SYSLINUX configurations the rewrite is idempotent
(rewriting the rewritten text to the same version reproduces it), and when
the rewrite leaves a config text unchanged `_update_syslinux_config`
performs no write (the update returns success with the state untouched and
an empty operation trace). -/
theorem syslinux_rewrite_idempotent_and_write_gated (v : String) (ls : List SLine)
    (env : Env) (s : FS) (c : String)
    (hwf : ∀ l ∈ ls, wfSLine l = true) (hv : validVer v = true)
    (hc : s.syslinuxCfg = some c) (henv : env.syslinuxFail = false)
    (hfix : syslinuxRewrite v c = c) :
    syslinuxRewrite v (syslinuxRewrite v ⟨renderConfig ls⟩) =
      syslinuxRewrite v ⟨renderConfig ls⟩ ∧
    updateSyslinuxCfgMU env s v = (true, s, []) := by
  constructor
  · have h1 := subSyslinux_renderConfig v ls hwf hv
    have hwf2 : ∀ l ∈ ls.map (rewriteSLine v), wfSLine l = true := by
      intro l hl
      obtain ⟨l0, hl0, hleq⟩ := List.mem_map.mp hl
      rw [← hleq]
      exact wf_rewriteSLine (hwf l0 hl0) hv
    have h2 := subSyslinux_renderConfig v (ls.map (rewriteSLine v)) hwf2 hv
    have h3 : (ls.map (rewriteSLine v)).map (rewriteSLine v) = ls.map (rewriteSLine v) := by
      rw [List.map_map]
      exact List.map_congr_left (fun l _ => rewriteSLine_idem v l)
    show (⟨subSyslinux v (subSyslinux v (renderConfig ls))⟩ : String) =
      ⟨subSyslinux v (renderConfig ls)⟩
    rw [h1, h2, h3]
  · simp only [updateSyslinuxCfgMU, hc]
    rw [henv]
    simp only [Bool.false_eq_true, if_false]
    rw [hfix]
    simp

theorem syslinux_rewrite_idempotent_and_write_gated_instance :
    (∀ l ∈ ls0C7, wfSLine l = true) ∧ validVer "6.2.0" = true ∧
    fsC7.syslinuxCfg = some cfgC7 ∧ envPlain.syslinuxFail = false ∧
    syslinuxRewrite "6.2.0" cfgC7 = cfgC7 ∧
    (syslinuxRewrite "6.2.0" (syslinuxRewrite "6.2.0" ⟨renderConfig ls0C7⟩) =
       syslinuxRewrite "6.2.0" ⟨renderConfig ls0C7⟩ ∧
     updateSyslinuxCfgMU envPlain fsC7 "6.2.0" = (true, fsC7, [])) :=
  ⟨by decide, by decide, rfl, rfl, by decide,
   syslinux_rewrite_idempotent_and_write_gated "6.2.0" ls0C7 envPlain fsC7 cfgC7
     (by decide) (by decide) rfl rfl (by decide)⟩

/-- A two-assignment GRUB config text in the shape GRUB themes actually
use (both variable assignments quoted). -/
def exTwoLine : String :=
  "set linux_image=\"/minios/boot/vmlinuz-1.0\"\nset initrd_img=\"/minios/boot/initrfs-1.0.img\"\n"

/-- C7 counterexample: the GRUB rewriter of `_update_grub_config` is not
idempotent. On a two-assignment config the first application deletes both
closing quotes; on the second application the `(set linux_image=")([^"]+)"`
pattern then matches across the newline up to the quote opening the second
assignment and rewrites text it never touched before. -/
theorem grub_rewrite_not_idempotent :
    grubRewriteMU "6.2.0" (grubRewriteMU "6.2.0" exTwoLine) ≠
      grubRewriteMU "6.2.0" exTwoLine := by
  decide

/-- Strict UTF-8 decoder over byte values, following Python's `utf-8` codec:
rejects stray continuation bytes, overlong forms, surrogate code points,
out-of-range code points and truncated sequences. Returns the decoded code
point sequence. -/
def utf8Decode : List Nat → Option (List Nat)
  | [] => some []
  | b :: bs =>
    if b < 0x80 then
      match utf8Decode bs with
      | some cs => some (b :: cs)
      | none => none
    else if b < 0xC2 then none
    else if b < 0xE0 then
      match bs with
      | b1 :: bs1 =>
        if b1 < 0x80 ∨ 0xC0 ≤ b1 then none
        else
          match utf8Decode bs1 with
          | some cs => some (((b - 0xC0) * 64 + (b1 - 0x80)) :: cs)
          | none => none
      | [] => none
    else if b < 0xF0 then
      match bs with
      | b1 :: b2 :: bs2 =>
        if b1 < 0x80 ∨ 0xC0 ≤ b1 ∨ b2 < 0x80 ∨ 0xC0 ≤ b2 then none
        else
          if (b - 0xE0) * 4096 + (b1 - 0x80) * 64 + (b2 - 0x80) < 0x800 ∨
             (0xD800 ≤ (b - 0xE0) * 4096 + (b1 - 0x80) * 64 + (b2 - 0x80) ∧
              (b - 0xE0) * 4096 + (b1 - 0x80) * 64 + (b2 - 0x80) < 0xE000) then none
          else
            match utf8Decode bs2 with
            | some cs =>
              some (((b - 0xE0) * 4096 + (b1 - 0x80) * 64 + (b2 - 0x80)) :: cs)
            | none => none
      | _ => none
    else if b < 0xF5 then
      match bs with
      | b1 :: b2 :: b3 :: bs3 =>
        if b1 < 0x80 ∨ 0xC0 ≤ b1 ∨ b2 < 0x80 ∨ 0xC0 ≤ b2 ∨ b3 < 0x80 ∨ 0xC0 ≤ b3 then
          none
        else
          if (b - 0xF0) * 0x40000 + (b1 - 0x80) * 4096 + (b2 - 0x80) * 64 +
               (b3 - 0x80) < 0x10000 ∨
             0x10FFFF < (b - 0xF0) * 0x40000 + (b1 - 0x80) * 4096 + (b2 - 0x80) * 64 +
               (b3 - 0x80) then none
          else
            match utf8Decode bs3 with
            | some cs =>
              some (((b - 0xF0) * 0x40000 + (b1 - 0x80) * 4096 + (b2 - 0x80) * 64 +
                (b3 - 0x80)) :: cs)
            | none => none
      | _ => none
    else none

/-- Decoding table of Python's `cp866` codec for bytes 0x80-0xFF (bytes
below 0x80 decode to themselves); the codec is total, every byte decodes. -/
def cp866Tab : List Nat :=
  [1040, 1041, 1042, 1043, 1044, 1045, 1046, 1047,
   1048, 1049, 1050, 1051, 1052, 1053, 1054, 1055,
   1056, 1057, 1058, 1059, 1060, 1061, 1062, 1063,
   1064, 1065, 1066, 1067, 1068, 1069, 1070, 1071,
   1072, 1073, 1074, 1075, 1076, 1077, 1078, 1079,
   1080, 1081, 1082, 1083, 1084, 1085, 1086, 1087,
   9617, 9618, 9619, 9474, 9508, 9569, 9570, 9558,
   9557, 9571, 9553, 9559, 9565, 9564, 9563, 9488,
   9492, 9524, 9516, 9500, 9472, 9532, 9566, 9567,
   9562, 9556, 9577, 9574, 9568, 9552, 9580, 9575,
   9576, 9572, 9573, 9561, 9560, 9554, 9555, 9579,
   9578, 9496, 9484, 9608, 9604, 9612, 9616, 9600,
   1088, 1089, 1090, 1091, 1092, 1093, 1094, 1095,
   1096, 1097, 1098, 1099, 1100, 1101, 1102, 1103,
   1025, 1105, 1028, 1108, 1031, 1111, 1038, 1118,
   176, 8729, 183, 8730, 8470, 164, 9632, 160]

def cp866B (b : Nat) : Nat := if b < 128 then b else cp866Tab.getD (b - 128) 0

/-- Python's `cp866` decode never raises: every byte maps to a code point. -/
def cp866Decode (raw : List Nat) : Option (List Nat) := some (raw.map cp866B)

/-- Python's `iso-8859-1` decode never raises: bytes map to themselves. -/
def iso88591Decode (raw : List Nat) : Option (List Nat) := some raw

/-- The `latin-1` fallback of `_update_syslinux_file` (always succeeds). -/
def latin1Decode (raw : List Nat) : List Nat := raw

inductive Enc where
  | utf8
  | cp866
  | iso88591
  | latin1
deriving DecidableEq

/-- The decode loop of `_update_syslinux_file` (bootloader_utils.py:38-48):
try `['utf-8', 'cp866', 'iso-8859-1']` in order, remember which encoding
succeeded, and fall back to `latin-1` if all fail. -/
def decodeChain (raw : List Nat) : List Nat × Enc :=
  match utf8Decode raw with
  | some cps => (cps, Enc.utf8)
  | none =>
    match cp866Decode raw with
    | some cps => (cps, Enc.cp866)
    | none =>
      match iso88591Decode raw with
      | some cps => (cps, Enc.iso88591)
      | none => (latin1Decode raw, Enc.latin1)

/-- Inverse (encoding) map of the `cp866` codec. -/
def cp866EncB (cp : Nat) : Option Nat :=
  (List.range 256).find? (fun b => cp866B b == cp)

def encByte (f : Nat → Option Nat) : List Nat → Option (List Nat)
  | [] => some []
  | c :: cs =>
    match f c, encByte f cs with
    | some b, some bs => some (b :: bs)
    | _, _ => none

def encLatinB (c : Nat) : Option Nat := if c < 256 then some c else none

def utf8EncodeCp (c : Nat) : Option (List Nat) :=
  if c < 0x80 then some [c]
  else if c < 0x800 then some [0xC0 + c / 64, 0x80 + c % 64]
  else if c < 0x10000 then
    if 0xD800 ≤ c ∧ c < 0xE000 then none
    else some [0xE0 + c / 4096, 0x80 + (c / 64) % 64, 0x80 + c % 64]
  else if c < 0x110000 then
    some [0xF0 + c / 0x40000, 0x80 + (c / 4096) % 64, 0x80 + (c / 64) % 64,
      0x80 + c % 64]
  else none

def utf8Encode : List Nat → Option (List Nat)
  | [] => some []
  | c :: cs =>
    match utf8EncodeCp c, utf8Encode cs with
    | some bs, some rest => some (bs ++ rest)
    | _, _ => none

/-- Re-encoding with the encoding detected at decode time (the
`open(config_file, 'w', encoding=detected_encoding)` of the source). -/
def encodeWith : Enc → List Nat → Option (List Nat)
  | Enc.utf8, cps => utf8Encode cps
  | Enc.cp866, cps => encByte cp866EncB cps
  | Enc.iso88591, cps => encByte encLatinB cps
  | Enc.latin1, cps => encByte encLatinB cps

/-- The SYSLINUX rewrite applied to a decoded code-point sequence. -/
def rewriteCps (v : String) (cps : List Nat) : List Nat :=
  (subSyslinux v (cps.map Char.ofNat)).map Char.toNat

/-- Byte-level model of `_update_syslinux_file`: decode with the fallback
chain, rewrite, and if the text changed re-encode with the detected
encoding and write (`none` models no write; a failed re-encode raises and
returns `False`). -/
def updateSyslinuxFileBytes (v : String) (raw : List Nat) : Bool × Option (List Nat) :=
  if rewriteCps v (decodeChain raw).1 ≠ (decodeChain raw).1 then
    match encodeWith (decodeChain raw).2 (rewriteCps v (decodeChain raw).1) with
    | some out => (true, some out)
    | none => (false, none)
  else (true, none)

theorem cp866_roundtrip : ∀ b, b < 256 → cp866EncB (cp866B b) = some b := by decide

theorem encByte_cp866_map {raw : List Nat} (hb : ∀ b ∈ raw, b < 256) :
    encByte cp866EncB (raw.map cp866B) = some raw := by
  induction raw with
  | nil => rfl
  | cons b bs ih =>
    simp only [List.map_cons, encByte]
    rw [cp866_roundtrip b (hb b (by simp)), ih (fun x hx => hb x (by simp [hx]))]

/-- C9 (amended): the legacy-encoding fallback exists only in
`_update_syslinux_file` of `bootloader_utils.update_syslinux_config`. For
that helper, a config file whose bytes are not valid UTF-8 is decoded by
the fallback chain with the first legacy encoding that succeeds (`cp866`,
the DOS codepage, which decodes every byte), the decode never fails,
re-encoding the decoded text with that same detected encoding reproduces
the original bytes exactly (so an unchanged region is never corrupted), an
unchanged file is not written, and any bytes that are written are produced
by the detected encoding applied to the rewritten text. The other config
rewriters have no such fallback (see the counterexample below). -/
theorem syslinux_legacy_decode_reencode (v : String) (raw : List Nat)
    (hb : ∀ b ∈ raw, b < 256) (hfail : utf8Decode raw = none) :
    (decodeChain raw).2 = Enc.cp866 ∧
    encodeWith Enc.cp866 (decodeChain raw).1 = some raw ∧
    (rewriteCps v (decodeChain raw).1 = (decodeChain raw).1 →
      updateSyslinuxFileBytes v raw = (true, none)) ∧
    (∀ out, updateSyslinuxFileBytes v raw = (true, some out) →
      encodeWith Enc.cp866 (rewriteCps v (decodeChain raw).1) = some out) := by
  have hdec : decodeChain raw = (raw.map cp866B, Enc.cp866) := by
    simp [decodeChain, hfail, cp866Decode]
  refine ⟨by rw [hdec], ?_, ?_, ?_⟩
  · rw [hdec]
    exact encByte_cp866_map hb
  · intro hfix
    simp only [updateSyslinuxFileBytes, hfix, ne_eq, not_true_eq_false, if_false]
  · intro out hout
    by_cases hfix : rewriteCps v (decodeChain raw).1 = (decodeChain raw).1
    · simp only [updateSyslinuxFileBytes, hfix, ne_eq, not_true_eq_false,
        if_false] at hout
      exact absurd hout (by simp)
    · simp only [updateSyslinuxFileBytes, ne_eq, hfix, not_false_eq_true,
        if_true] at hout
      cases henc : encodeWith (decodeChain raw).2 (rewriteCps v (decodeChain raw).1) with
      | none =>
        rw [henc] at hout
        exact absurd hout (by simp)
      | some out' =>
        rw [henc] at hout
        simp only [Prod.mk.injEq, Option.some.injEq] at hout
        have h2 : (decodeChain raw).2 = Enc.cp866 := by rw [hdec]
        rw [← h2, ← hout.2]
        exact henc

/-- A byte string that is not valid UTF-8 (a lone 0xFF byte among ASCII). -/
def rawC9 : List Nat := [75, 69, 255, 10]

theorem syslinux_legacy_decode_reencode_instance :
    (∀ b ∈ rawC9, b < 256) ∧ utf8Decode rawC9 = none ∧
    ((decodeChain rawC9).2 = Enc.cp866 ∧
     encodeWith Enc.cp866 (decodeChain rawC9).1 = some rawC9 ∧
     (rewriteCps "6.2.0" (decodeChain rawC9).1 = (decodeChain rawC9).1 →
       updateSyslinuxFileBytes "6.2.0" rawC9 = (true, none)) ∧
     (∀ out, updateSyslinuxFileBytes "6.2.0" rawC9 = (true, some out) →
       encodeWith Enc.cp866 (rewriteCps "6.2.0" (decodeChain rawC9).1) = some out)) :=
  ⟨by decide, by decide,
   syslinux_legacy_decode_reencode "6.2.0" rawC9 (by decide) (by decide)⟩

/-- Byte-level model of the read/decode stage of one config file inside
`bootloader_utils.update_grub_config` (lines 140-142, 183-185): the file is
opened with `encoding='utf-8'`, so a file whose bytes are not valid UTF-8
raises `UnicodeDecodeError` inside the per-file `try`, is counted as a
failure (`success = False`) and is never decoded; there is no
legacy-encoding fallback on this path. A decodable file yields its code
points for the subsequent substitution passes. -/
def updateGrubFileReadBU (raw : List Nat) : Bool × Option (List Nat) :=
  match utf8Decode raw with
  | none => (false, none)
  | some cps => (true, some cps)

/-- C9 counterexample: the claim's universal quantification over every
bootloader config file fails. The GRUB updater `update_grub_config` of
`bootloader_utils` reads each file strictly as UTF-8 and turns an
undecodable file into a per-file failure with no fallback decode at all,
even though the very same bytes are decodable by the fallback chain (which
lives only in `_update_syslinux_file`). -/
theorem grub_update_no_legacy_fallback :
    utf8Decode rawC9 = none ∧
    updateGrubFileReadBU rawC9 = (false, none) ∧
    (decodeChain rawC9).2 = Enc.cp866 := by
  refine ⟨by decide, ?_, by decide⟩
  simp only [updateGrubFileReadBU, show utf8Decode rawC9 = none from by decide]
